import Mathlib

/-!
# Verification of the chili3d copilot agent orchestration and retrieval pipeline

Shallow embedding, in Lean 4, of the TypeScript sources of the chili3d
copilot packages (`chili-copilot`, `chili-copilot-rag`):

* `workflow-state-machine.ts` — the workflow lifecycle state machine;
* `executor-agent.ts` — the plan-step scheduler (Kahn topological sort,
  retry, failure propagation via `skipDependents`);
* `reasoning-stream-processor.ts` — the streaming-response router;
* `tool-executor.ts` — the tool dispatch table with schema validation;
* `in-memory-vector-store.ts` and `utils.ts` — the similarity index,
  cosine similarity, token estimation and text chunking;
* `context-assembler.ts` — the token-budgeted context assembler.

Conventions of the embedding:

* JavaScript `Map` objects are modelled by association lists
  (`JsMap`) whose `set` operation replaces the value of an existing key
  in place (preserving its position, as JS `Map.set` does) and appends
  fresh keys at the end; iteration over the map is iteration over the
  list, which matches JS insertion-order iteration.
* JavaScript numbers are modelled by `Int` where only integer values
  occur (in-degrees, budgets) and by `ℚ` where fractional values occur
  (similarity scores, the `* 0.4` budget factor).  This is an exact
  idealisation of IEEE-754 doubles; the claims treated here do not
  depend on rounding behaviour.
* `Math.sqrt` is modelled by an abstract parameter `sqrtFn : ℚ → ℚ`;
  the only fact any theorem needs about it is `sqrtFn 0 = 0`.
* Thrown exceptions are modelled with `Except` (or, where partially
  mutated state survives the throw, by returning the state paired with
  an optional error).
* Asynchronous streams and LLM calls are modelled by passing the
  (finite) list of chunks, resp. an oracle function giving each step
  attempt's outcome, as explicit parameters.
-/

namespace Chili

/-! ## JsMap: association-list model of a JavaScript `Map` -/

/-- Association-list model of a JavaScript `Map`.  The list order is
the JS insertion order. -/
abbrev JsMap (κ ν : Type) : Type := List (κ × ν)

namespace JsMap

variable {κ ν : Type} [DecidableEq κ]

/-- `Map.get`: first (and, for maps built with `set`, only) binding. -/
def get (m : JsMap κ ν) (k : κ) : Option ν :=
  match m with
  | [] => none
  | (k', v) :: rest => if k' = k then some v else get rest k

/-- `Map.set`: replace the value at an existing key in place, keeping
its position, else append the new binding at the end. -/
def set (m : JsMap κ ν) (k : κ) (v : ν) : JsMap κ ν :=
  match m with
  | [] => [(k, v)]
  | (k', v') :: rest => if k' = k then (k', v) :: rest else (k', v') :: set rest k v

/-- `Map.has`. -/
def hasKey (m : JsMap κ ν) (k : κ) : Bool :=
  (get m k).isSome

/-- The keys, in insertion order. -/
def keys (m : JsMap κ ν) : List κ := m.map Prod.fst

theorem get_set_self (m : JsMap κ ν) (k : κ) (v : ν) :
    get (set m k v) k = some v := by
  induction m with
  | nil => simp [set, get]
  | cons hd tl ih =>
    obtain ⟨k', v'⟩ := hd
    by_cases h : k' = k <;> simp [set, get, h, ih]

theorem get_set_ne (m : JsMap κ ν) (k k' : κ) (v : ν) (h : k ≠ k') :
    get (set m k v) k' = get m k' := by
  induction m with
  | nil => simp [set, get, h]
  | cons hd tl ih =>
    obtain ⟨k₀, v₀⟩ := hd
    by_cases h0 : k₀ = k <;> simp [set, get, h0, ih]
    · subst h0; simp [h]

theorem get_append (m₁ m₂ : JsMap κ ν) (k : κ) :
    get (m₁ ++ m₂) k =
      match get m₁ k with
      | some v => some v
      | none => get m₂ k := by
  induction m₁ with
  | nil => simp [get]
  | cons hd tl ih =>
    obtain ⟨k₀, v₀⟩ := hd
    by_cases h0 : k₀ = k <;> simp [get, h0, ih]

theorem set_fresh (m : JsMap κ ν) (k : κ) (v : ν) (h : get m k = none) :
    set m k v = m ++ [(k, v)] := by
  induction m with
  | nil => simp [set]
  | cons hd tl ih =>
    obtain ⟨k₀, v₀⟩ := hd
    by_cases h0 : k₀ = k
    · simp [get, h0] at h
    · simp [get, h0] at h
      simp [set, h0, ih h]

end JsMap

/-! ## Data model (`agentic/types.ts`) -/

/-- Step status (`PlanStep.status`). -/
inductive StepStatus
  | pending | active | done | failed | skipped
deriving Repr, DecidableEq

/-- A plan step (`PlanStep` in `agentic/types.ts`). -/
structure PlanStep where
  index : Nat
  label : String
  description : String
  dependsOn : List Nat
  toolHints : List String
  status : StepStatus
deriving Repr, DecidableEq

/-- A clarification question (payload fields other than `id` are
irrelevant to the claims and folded into `question`). -/
structure ClarificationQuestion where
  id : String
  question : String
deriving Repr, DecidableEq

/-- A plan (`Plan` in `agentic/types.ts`). -/
structure Plan where
  id : String
  title : String
  description : String
  constraints : List (String × String)
  steps : List PlanStep
  estimatedTokens : Nat
  estimatedCostUsd : ℚ
deriving DecidableEq

/-- Outcome tag of a `StepResult`. -/
inductive ResultStatus
  | success | failure
deriving Repr, DecidableEq

/-- A step result (`StepResult` in `agentic/types.ts`). -/
structure StepResult where
  stepIndex : Nat
  status : ResultStatus
  nodeIds : Option (List String) := none
  error : Option String := none
deriving Repr, DecidableEq

/-! ## Workflow state machine (`workflow-state-machine.ts`) -/

/-- The tagged workflow state, one variant per phase, each carrying
exactly the payload of the corresponding TS variant. -/
inductive WorkflowState
  | idle
  | analyzing (userPrompt : String)
  | clarifying (questions : List ClarificationQuestion) (answers : JsMap String String)
  | planning (plan : Plan)
  | awaitingApproval (plan : Plan)
  | executing (plan : Plan) (currentStepIndex : Nat)
  | completed (plan : Plan) (results : List StepResult)
  | error (err : String) (recoverable : Bool)

/-- The phase string of a state, as produced by the `phase` getter. -/
def WorkflowState.phase : WorkflowState → String
  | .idle => "idle"
  | .analyzing _ => "analyzing"
  | .clarifying _ _ => "clarifying"
  | .planning _ => "planning"
  | .awaitingApproval _ => "awaiting_approval"
  | .executing _ _ => "executing"
  | .completed _ _ => "completed"
  | .error _ _ => "error"

/-- The error thrown by `assertPhase`; the TS message is
`Invalid state transition: expected <expected>, got <actual>`, so the
error identifies both the expected and the actual phase. -/
structure TransitionError where
  expected : String
  actual : String
deriving Repr, DecidableEq

/-- `assertPhase(expected)`: succeed iff the current phase matches. -/
def assertPhase (expected : String) (s : WorkflowState) : Except TransitionError Unit :=
  if s.phase = expected then .ok () else .error ⟨expected, s.phase⟩

/-- `startAnalysis`: guarded by `assertPhase("idle")`. -/
def startAnalysis (userPrompt : String) (s : WorkflowState) :
    Except TransitionError WorkflowState := do
  let _ ← assertPhase "idle" s
  return .analyzing userPrompt

/-- `requestClarification`: guarded by `assertPhase("analyzing")`. -/
def requestClarification (questions : List ClarificationQuestion) (s : WorkflowState) :
    Except TransitionError WorkflowState := do
  let _ ← assertPhase "analyzing" s
  return .clarifying questions []

/-- `answerQuestion`: guarded by `assertPhase("clarifying")`; mutates the
answer map of the current clarifying state in place (not a phase change). -/
def answerQuestion (questionId answer : String) (s : WorkflowState) :
    Except TransitionError WorkflowState := do
  let _ ← assertPhase "clarifying" s
  match s with
  | .clarifying questions answers =>
      return .clarifying questions (JsMap.set answers questionId answer)
  | _ => return s

/-- `startPlanning`: the source performs no `assertPhase` here. -/
def startPlanning (plan : Plan) (_s : WorkflowState) :
    Except TransitionError WorkflowState :=
  .ok (.planning plan)

/-- `awaitApproval`: the source performs no `assertPhase` here. -/
def awaitApproval (plan : Plan) (_s : WorkflowState) :
    Except TransitionError WorkflowState :=
  .ok (.awaitingApproval plan)

/-- `startExecution`: guarded by `assertPhase("awaiting_approval")`. -/
def startExecution (plan : Plan) (s : WorkflowState) :
    Except TransitionError WorkflowState := do
  let _ ← assertPhase "awaiting_approval" s
  return .executing plan 0

/-- `advanceStep`: guarded by `assertPhase("executing")`; keeps the plan. -/
def advanceStep (stepIndex : Nat) (s : WorkflowState) :
    Except TransitionError WorkflowState := do
  let _ ← assertPhase "executing" s
  match s with
  | .executing plan _ => return .executing plan stepIndex
  | _ => return s

/-- `complete`: the source performs no `assertPhase` here. -/
def complete (plan : Plan) (results : List StepResult) (_s : WorkflowState) :
    Except TransitionError WorkflowState :=
  .ok (.completed plan results)

/-- `setError`: unguarded, valid from every phase. -/
def setError (err : String) (recoverable : Bool) (_s : WorkflowState) :
    Except TransitionError WorkflowState :=
  .ok (.error err recoverable)

/-- `reset`: unguarded, valid from every phase. -/
def reset (_s : WorkflowState) : Except TransitionError WorkflowState :=
  .ok .idle

/-- An empty demonstration plan, mirroring the plan literal used by the
repository's own workflow tests. -/
def demoPlan : Plan :=
  { id := "p1", title := "Test", description := "", constraints := [],
    steps := [], estimatedTokens := 1000, estimatedCostUsd := 0 }

/-- C1, counterexample: `startPlanning`, `awaitApproval` and `complete`
carry no `assertPhase` guard in the source, so they succeed from `idle`
and from `completed` alike — hence it is not true that only `reset` and
`setError` are valid from every phase, and `startPlanning` does not
require a specific predecessor phase. -/
theorem startPlanning_unguarded_counterexample :
    (Chili.startPlanning Chili.demoPlan Chili.WorkflowState.idle
      = Except.ok (Chili.WorkflowState.planning Chili.demoPlan)) ∧
    (Chili.startPlanning Chili.demoPlan (Chili.WorkflowState.completed Chili.demoPlan [])
      = Except.ok (Chili.WorkflowState.planning Chili.demoPlan)) ∧
    (Chili.awaitApproval Chili.demoPlan Chili.WorkflowState.idle
      = Except.ok (Chili.WorkflowState.awaitingApproval Chili.demoPlan)) ∧
    (Chili.complete Chili.demoPlan [] Chili.WorkflowState.idle
      = Except.ok (Chili.WorkflowState.completed Chili.demoPlan [])) :=
  ⟨rfl, rfl, rfl, rfl⟩

/-- C1, amended: each mutating operation of the workflow state machine
either performs its phase transition or fails with an invalid-transition
error identifying the expected and the actual phase.  `startAnalysis`,
`requestClarification`, `answerQuestion`, `startExecution` and
`advanceStep` require their specific predecessor phase (`idle`,
`analyzing`, `clarifying`, `awaiting_approval`, `executing`
respectively); `startPlanning`, `awaitApproval`, `complete`, `setError`
and `reset` are valid from every phase.  In particular,
`requestClarification` called in phase `idle` is rejected with an error
naming `analyzing` as the expected phase and `idle` as the actual one. -/
theorem workflow_transition_contract (s : Chili.WorkflowState) (p qid ans e : String)
    (qs : List Chili.ClarificationQuestion) (pl : Chili.Plan) (i : Nat)
    (rs : List Chili.StepResult) (b : Bool) :
    (Chili.startAnalysis p s =
      if s.phase = "idle" then .ok (.analyzing p) else .error ⟨"idle", s.phase⟩) ∧
    (Chili.requestClarification qs s =
      if s.phase = "analyzing" then .ok (.clarifying qs []) else .error ⟨"analyzing", s.phase⟩) ∧
    (Chili.answerQuestion qid ans s =
      match s with
      | .clarifying q a => .ok (.clarifying q (JsMap.set a qid ans))
      | _ => .error ⟨"clarifying", s.phase⟩) ∧
    (Chili.startExecution pl s =
      if s.phase = "awaiting_approval" then .ok (.executing pl 0)
      else .error ⟨"awaiting_approval", s.phase⟩) ∧
    (Chili.advanceStep i s =
      match s with
      | .executing q _ => .ok (.executing q i)
      | _ => .error ⟨"executing", s.phase⟩) ∧
    (Chili.startPlanning pl s = .ok (.planning pl)) ∧
    (Chili.awaitApproval pl s = .ok (.awaitingApproval pl)) ∧
    (Chili.complete pl rs s = .ok (.completed pl rs)) ∧
    (Chili.setError e b s = .ok (.error e b)) ∧
    (Chili.reset s = .ok .idle) ∧
    (Chili.requestClarification qs .idle = .error ⟨"analyzing", "idle"⟩) := by
  refine ⟨?_, ?_, ?_, ?_, ?_, rfl, rfl, rfl, rfl, rfl, rfl⟩ <;>
    cases s <;>
    simp [Chili.startAnalysis, Chili.requestClarification, Chili.answerQuestion,
      Chili.startExecution, Chili.advanceStep, Chili.assertPhase,
      Chili.WorkflowState.phase, Except.bind]

/-! ## Plan scheduler: `ExecutorAgent.topologicalSort` (`executor-agent.ts`)

The TS method builds an in-degree map and an adjacency map over the
plan's steps, seeds a FIFO queue with the zero-in-degree indices, and
runs Kahn's algorithm.  In-degree values are `Int` because the JS
decrement `(inDegree.get(neighbor) ?? 1) - 1` can drive a value below
zero on malformed graphs.  The loop is written with explicit fuel;
`steps.length` units suffice, because each iteration moves one index
from the queue into the output and (as proved below) the indices ever
enqueued are pairwise distinct indices of the plan. -/

/-- The `for (const step of steps) { inDegree.set(step.index, step.dependsOn.length); … }`
pass restricted to the in-degree map. -/
def buildInDegree (steps : List PlanStep) : JsMap Nat Int :=
  steps.foldl (fun m s => JsMap.set m s.index (s.dependsOn.length : Int)) []

/-- The adjacency-building work of one step: ensure the step's own index
has an entry, then push this step's index onto each dependency's list. -/
def addStepAdjacency (m : JsMap Nat (List Nat)) (s : PlanStep) : JsMap Nat (List Nat) :=
  let m1 := if JsMap.hasKey m s.index then m else JsMap.set m s.index []
  s.dependsOn.foldl (fun m' d => JsMap.set m' d (((JsMap.get m' d).getD []) ++ [s.index])) m1

/-- The full adjacency map of `topologicalSort`. -/
def buildAdjacency (steps : List PlanStep) : JsMap Nat (List Nat) :=
  steps.foldl addStepAdjacency []

/-- `new Map(steps.map((s) => [s.index, s]))`. -/
def buildStepMap (steps : List PlanStep) : JsMap Nat PlanStep :=
  steps.foldl (fun m s => JsMap.set m s.index s) []

/-- The initial queue: keys of the in-degree map whose degree is zero,
in map insertion order. -/
def initialQueue (inDegree : JsMap Nat Int) : List Nat :=
  (inDegree.filter (fun kv => kv.2 = 0)).map Prod.fst

/-- One decrement of the inner `for (const neighbor of …)` loop:
`deg = (inDegree.get(neighbor) ?? 1) - 1; inDegree.set(neighbor, deg);
if (deg === 0) queue.push(neighbor)`. -/
def decrementNeighbor (p : JsMap Nat Int × List Nat) (n : Nat) : JsMap Nat Int × List Nat :=
  let deg := ((JsMap.get p.1 n).getD 1) - 1
  (JsMap.set p.1 n deg, if deg = 0 then p.2 ++ [n] else p.2)

/-- The `while (queue.length > 0)` loop of `topologicalSort`. -/
def kahnLoop (stepMap : JsMap Nat PlanStep) (adjacency : JsMap Nat (List Nat)) :
    Nat → List Nat → JsMap Nat Int → List PlanStep → List PlanStep
  | _, [], _, sorted => sorted
  | 0, _ :: _, _, sorted => sorted
  | fuel + 1, current :: queue, inDeg, sorted =>
    let sorted' := match JsMap.get stepMap current with
      | some s => sorted ++ [s]
      | none => sorted
    let st := ((JsMap.get adjacency current).getD []).foldl decrementNeighbor (inDeg, queue)
    kahnLoop stepMap adjacency fuel st.2 st.1 sorted'

/-- `ExecutorAgent.topologicalSort`. -/
def topologicalSort (steps : List PlanStep) : List PlanStep :=
  let inDegree := buildInDegree steps
  let adjacency := buildAdjacency steps
  let stepMap := buildStepMap steps
  kahnLoop stepMap adjacency steps.length (initialQueue inDegree) inDegree []

/-- The indices of a step list. -/
def indicesOf (steps : List PlanStep) : List Nat := steps.map (fun s => s.index)

/-- Well-formedness demanded by the data model (§3 of the design):
step indices are unique within a plan and dependencies reference only
indices present in the same plan. -/
def WFSteps (steps : List PlanStep) : Prop :=
  (indicesOf steps).Nodup ∧ ∀ s ∈ steps, ∀ d ∈ s.dependsOn, d ∈ indicesOf steps

instance (steps : List PlanStep) : Decidable (WFSteps steps) := by
  unfold WFSteps; infer_instance

/-- The value-level adjacency list the map construction computes for a
node `d`: one entry per occurrence of `d` in a step's `dependsOn`, in
step order. -/
def adjacencyOf (steps : List PlanStep) (d : Nat) : List Nat :=
  steps.flatMap (fun s => List.replicate (s.dependsOn.count d) s.index)

/-! ### Characterizing the three maps built by `topologicalSort` -/

theorem get_assocOf {ν : Type} (steps : List PlanStep) (g : PlanStep → ν)
    (h : (indicesOf steps).Nodup) (s : PlanStep) (hs : s ∈ steps) :
    JsMap.get (steps.map (fun t => (t.index, g t))) s.index = some (g s) := by
  induction steps with
  | nil => simp at hs
  | cons t rest ih =>
    simp [indicesOf] at h
    rcases List.mem_cons.mp hs with rfl | hs'
    · simp [JsMap.get]
    · have hne : t.index ≠ s.index := by
        intro he
        exact h.1 s hs' he.symm
      simp [JsMap.get, hne, ih h.2 hs']

theorem get_assocOf_none {ν : Type} (steps : List PlanStep) (g : PlanStep → ν)
    (i : Nat) (hi : i ∉ indicesOf steps) :
    JsMap.get (steps.map (fun t => (t.index, g t))) i = none := by
  induction steps with
  | nil => simp [JsMap.get]
  | cons t rest ih =>
    simp [indicesOf] at hi
    have h1 : ¬t.index = i := fun he => hi.1 he.symm
    have h2 : i ∉ indicesOf rest := by
      simp [indicesOf]
      exact hi.2
    simp [JsMap.get, h1, ih h2]

theorem foldl_set_assoc {ν : Type} (steps : List PlanStep) (g : PlanStep → ν)
    (h : (indicesOf steps).Nodup) :
    steps.foldl (fun m s => JsMap.set m s.index (g s)) ([] : JsMap Nat ν) =
      steps.map (fun t => (t.index, g t)) := by
  suffices H : ∀ (steps : List PlanStep) (m : JsMap Nat ν),
      (indicesOf steps).Nodup → (∀ s ∈ steps, JsMap.get m s.index = none) →
      steps.foldl (fun m s => JsMap.set m s.index (g s)) m = m ++ steps.map (fun t => (t.index, g t)) by
    simpa using H steps [] h (by intro s _; simp [JsMap.get])
  intro steps
  induction steps with
  | nil => intro m _ _; simp
  | cons t rest ih =>
    intro m h hfresh
    simp [indicesOf] at h
    have hset : JsMap.set m t.index (g t) = m ++ [(t.index, g t)] :=
      JsMap.set_fresh m t.index (g t) (hfresh t (by simp))
    have hfresh' : ∀ s ∈ rest, JsMap.get (m ++ [(t.index, g t)]) s.index = none := by
      intro s hs
      rw [JsMap.get_append]
      have : t.index ≠ s.index := fun he => h.1 s hs he.symm
      simp [hfresh s (by simp [hs]), JsMap.get, this]
    simp only [List.foldl_cons, hset, ih (m ++ [(t.index, g t)]) h.2 hfresh']
    simp

theorem buildInDegree_eq (steps : List PlanStep) (h : (indicesOf steps).Nodup) :
    buildInDegree steps = steps.map (fun t => (t.index, (t.dependsOn.length : Int))) :=
  foldl_set_assoc steps _ h

theorem buildStepMap_eq (steps : List PlanStep) (h : (indicesOf steps).Nodup) :
    buildStepMap steps = steps.map (fun t => (t.index, t)) :=
  foldl_set_assoc steps _ h

theorem buildStepMap_get (steps : List PlanStep) (h : (indicesOf steps).Nodup)
    (s : PlanStep) (hs : s ∈ steps) :
    JsMap.get (buildStepMap steps) s.index = some s := by
  rw [buildStepMap_eq steps h]; exact get_assocOf steps id h s hs

theorem buildInDegree_get (steps : List PlanStep) (h : (indicesOf steps).Nodup)
    (s : PlanStep) (hs : s ∈ steps) :
    JsMap.get (buildInDegree steps) s.index = some ((s.dependsOn.length : Int)) := by
  rw [buildInDegree_eq steps h]; exact get_assocOf steps _ h s hs

theorem filterZeroDegrees (steps : List PlanStep) :
    ((steps.map (fun t => (t.index, (t.dependsOn.length : Int)))).filter
        (fun kv => kv.2 = 0)).map Prod.fst
      = (steps.filter (fun s => s.dependsOn = [])).map (fun s => s.index) := by
  induction steps with
  | nil => rfl
  | cons t rest ih =>
    by_cases h0 : t.dependsOn = [] <;>
      simp [List.filter_cons, h0, ih, List.length_eq_zero]

theorem initialQueue_eq (steps : List PlanStep) (h : (indicesOf steps).Nodup) :
    initialQueue (buildInDegree steps) =
      (steps.filter (fun s => s.dependsOn = [])).map (fun s => s.index) := by
  rw [buildInDegree_eq steps h]
  exact filterZeroDegrees steps

theorem adjFold_getD (ds : List Nat) (i : Nat) (m : JsMap Nat (List Nat)) (d : Nat) :
    (JsMap.get (ds.foldl (fun m' x => JsMap.set m' x (((JsMap.get m' x).getD []) ++ [i])) m) d).getD []
      = ((JsMap.get m d).getD []) ++ List.replicate (ds.count d) i := by
  induction ds generalizing m with
  | nil => simp
  | cons n rest ih =>
    simp only [List.foldl_cons]
    rw [ih]
    by_cases hnd : n = d
    · subst hnd
      rw [JsMap.get_set_self]
      simp [List.count_cons, List.replicate_succ]
    · rw [JsMap.get_set_ne _ _ _ _ hnd]
      simp [List.count_cons, Ne.symm hnd]

theorem addStepAdjacency_getD (m : JsMap Nat (List Nat)) (s : PlanStep) (d : Nat) :
    (JsMap.get (addStepAdjacency m s) d).getD []
      = ((JsMap.get m d).getD []) ++ List.replicate (s.dependsOn.count d) s.index := by
  unfold addStepAdjacency
  rw [adjFold_getD]
  congr 1
  by_cases hk : JsMap.hasKey m s.index
  · simp [hk]
  · simp only [hk, Bool.false_eq_true, if_false]
    by_cases hd : s.index = d
    · subst hd
      rw [JsMap.get_set_self]
      simp [JsMap.hasKey, Option.isSome] at hk
      rcases hg : JsMap.get m s.index with _ | w
      · simp
      · simp [hg] at hk
    · rw [JsMap.get_set_ne _ _ _ _ hd]

theorem buildAdjacency_getD (steps : List PlanStep) (d : Nat) :
    (JsMap.get (buildAdjacency steps) d).getD [] = adjacencyOf steps d := by
  suffices H : ∀ (steps : List PlanStep) (m : JsMap Nat (List Nat)),
      (JsMap.get (steps.foldl addStepAdjacency m) d).getD []
        = ((JsMap.get m d).getD []) ++ adjacencyOf steps d by
    simpa [JsMap.get] using H steps []
  intro steps
  induction steps with
  | nil => intro m; simp [adjacencyOf]
  | cons t rest ih =>
    intro m
    simp only [List.foldl_cons, ih, addStepAdjacency_getD, adjacencyOf,
      List.flatMap_cons, List.append_assoc]

theorem adjacencyOf_sub (steps : List PlanStep) (c x : Nat)
    (hx : x ∈ adjacencyOf steps c) : x ∈ indicesOf steps := by
  simp [adjacencyOf] at hx
  obtain ⟨s, hs, -, rfl⟩ := hx
  simp [indicesOf]
  exact ⟨s, hs, rfl⟩

theorem adjacencyOf_count_zero (steps : List PlanStep) (c x : Nat)
    (hx : x ∉ indicesOf steps) : (adjacencyOf steps c).count x = 0 := by
  rw [List.count_eq_zero]
  exact fun hmem => hx (adjacencyOf_sub steps c x hmem)

theorem adjacencyOf_count (steps : List PlanStep) (h : (indicesOf steps).Nodup)
    (c : Nat) (s : PlanStep) (hs : s ∈ steps) :
    (adjacencyOf steps c).count s.index = s.dependsOn.count c := by
  induction steps with
  | nil => simp at hs
  | cons t rest ih =>
    simp [indicesOf] at h
    have hcons : adjacencyOf (t :: rest) c
        = List.replicate (t.dependsOn.count c) t.index ++ adjacencyOf rest c := by
      simp [adjacencyOf, List.flatMap_cons]
    rw [hcons, List.count_append, List.count_replicate]
    rcases List.mem_cons.mp hs with heq | hs'
    · subst heq
      have hz : List.count s.index (adjacencyOf rest c) = 0 :=
        adjacencyOf_count_zero rest c s.index (by
          simp [indicesOf]
          exact h.1)
      simp [hz]
    · have hne : ¬t.index = s.index := fun he => h.1 s hs' he.symm
      rw [ih h.2 hs']
      simp [hne]

theorem decFold_inDeg (ns : List Nat) (m : JsMap Nat Int) (q : List Nat) (x : Nat) :
    JsMap.get (ns.foldl decrementNeighbor (m, q)).1 x
      = if ns.count x = 0 then JsMap.get m x
        else some (((JsMap.get m x).getD 1) - (ns.count x : Int)) := by
  induction ns generalizing m q with
  | nil => simp
  | cons n rest ih =>
    simp only [List.foldl_cons]
    rw [show decrementNeighbor (m, q) n
        = (JsMap.set m n (((JsMap.get m n).getD 1) - 1),
           if ((JsMap.get m n).getD 1) - 1 = 0 then q ++ [n] else q) from rfl]
    rw [ih]
    by_cases hx : n = x
    · subst hx
      rw [JsMap.get_set_self]
      by_cases hr : rest.count n = 0
      · simp [List.count_cons, hr]
      · simp only [List.count_cons_self, hr, if_neg, Option.getD_some]
        have hc1 : ¬rest.count n + 1 = 0 := by omega
        simp [hc1]
        ring
    · rw [JsMap.get_set_ne _ _ _ _ hx]
      simp [List.count_cons, Ne.symm hx]

theorem decFold_queue (ns : List Nat) (m : JsMap Nat Int) (q : List Nat) :
    ∃ push : List Nat,
      (ns.foldl decrementNeighbor (m, q)).2 = q ++ push ∧
      push.Nodup ∧
      (∀ x, x ∈ push ↔
        (1 ≤ (JsMap.get m x).getD 1 ∧ (JsMap.get m x).getD 1 ≤ (ns.count x : Int))) := by
  induction ns generalizing m q with
  | nil =>
    refine ⟨[], by simp, List.nodup_nil, ?_⟩
    intro x
    simp
    intro h1
    omega
  | cons n rest ih =>
    simp only [List.foldl_cons]
    by_cases h0 : ((JsMap.get m n).getD 1) - 1 = 0
    · rw [show decrementNeighbor (m, q) n
          = (JsMap.set m n (((JsMap.get m n).getD 1) - 1), q ++ [n]) from by
        simp [decrementNeighbor, h0]]
      obtain ⟨push', hq', hnd', hmem'⟩ :=
        ih (JsMap.set m n (((JsMap.get m n).getD 1) - 1)) (q ++ [n])
      have hnotin : n ∉ push' := by
        intro hmem
        have := (hmem' n).mp hmem
        rw [JsMap.get_set_self] at this
        simp at this
        omega
      refine ⟨n :: push', by rw [hq']; simp, List.nodup_cons.mpr ⟨hnotin, hnd'⟩, ?_⟩
      intro x
      by_cases hx : x = n
      · subst hx
        simp [List.count_cons]
        omega
      · have hget : JsMap.get (JsMap.set m n (((JsMap.get m n).getD 1) - 1)) x
            = JsMap.get m x := JsMap.get_set_ne m n x _ (fun he => hx he.symm)
        rw [List.mem_cons]
        simp only [hx, false_or]
        rw [hmem' x, hget]
        simp [List.count_cons, hx]
    · rw [show decrementNeighbor (m, q) n
          = (JsMap.set m n (((JsMap.get m n).getD 1) - 1), q) from by
        simp [decrementNeighbor, h0]]
      obtain ⟨push', hq', hnd', hmem'⟩ :=
        ih (JsMap.set m n (((JsMap.get m n).getD 1) - 1)) q
      refine ⟨push', hq', hnd', ?_⟩
      intro x
      by_cases hx : x = n
      · subst hx
        rw [hmem' x, JsMap.get_set_self]
        simp only [Option.getD_some, List.count_cons_self]
        push_cast
        constructor
        · rintro ⟨h1, h2⟩
          omega
        · rintro ⟨h1, h2⟩
          omega
      · have hget : JsMap.get (JsMap.set m n (((JsMap.get m n).getD 1) - 1)) x
            = JsMap.get m x := JsMap.get_set_ne m n x _ (fun he => hx he.symm)
        rw [hmem' x, hget]
        simp [List.count_cons, hx]

/-! ### The Kahn loop invariant -/

/-- The number of dependencies of `s` not yet in `processed`, as the
`Int` the in-degree map holds for `s` at a loop head. -/
def remainingDeg (s : PlanStep) (processed : List Nat) : Int :=
  ((s.dependsOn.filter (fun d => decide (d ∉ processed))).length : Int)

theorem remainingDeg_nonneg (s : PlanStep) (processed : List Nat) :
    0 ≤ remainingDeg s processed := by
  simp [remainingDeg]

theorem remainingDeg_eq_zero (s : PlanStep) (processed : List Nat) :
    remainingDeg s processed = 0 ↔ ∀ d ∈ s.dependsOn, d ∈ processed := by
  simp [remainingDeg, List.length_eq_zero, List.filter_eq_nil_iff]

theorem remainingDeg_pos (s : PlanStep) (processed : List Nat)
    (d : Nat) (hd : d ∈ s.dependsOn) (hdp : d ∉ processed) :
    1 ≤ remainingDeg s processed := by
  have hmem : d ∈ s.dependsOn.filter (fun d => decide (d ∉ processed)) :=
    List.mem_filter.mpr ⟨hd, by simpa using hdp⟩
  have hpos : 0 < (s.dependsOn.filter (fun d => decide (d ∉ processed))).length :=
    List.length_pos.mpr (List.ne_nil_of_mem hmem)
  unfold remainingDeg
  omega

theorem remainingDeg_append (s : PlanStep) (processed : List Nat) (c : Nat)
    (hc : c ∉ processed) :
    remainingDeg s (processed ++ [c])
      = remainingDeg s processed - (s.dependsOn.count c : Int) := by
  suffices H : ∀ l : List Nat,
      (l.filter (fun d => decide (d ∉ (processed ++ [c])))).length + l.count c
        = (l.filter (fun d => decide (d ∉ processed))).length by
    have h := H s.dependsOn
    unfold remainingDeg
    omega
  intro l
  induction l with
  | nil => simp
  | cons d rest ih =>
    simp only [List.filter_cons, List.count_cons]
    by_cases hdc : d = c
    · have e1 : (decide (d ∉ processed ++ [c])) = false := by simp [hdc]
      have e2 : (decide (d ∉ processed)) = true := by simpa [hdc] using hc
      have e3 : (if (d == c) = true then 1 else 0) = 1 := by simp [hdc]
      rw [e1, e2, e3]
      simp only [Bool.false_eq_true, if_false, if_true, List.length_cons]
      omega
    · have e3 : (if (d == c) = true then 1 else 0) = 0 := by simp [hdc]
      rw [e3]
      by_cases hdp : d ∈ processed
      · have e1 : (decide (d ∉ processed ++ [c])) = false := by simp [hdp]
        have e2 : (decide (d ∉ processed)) = false := by simpa using hdp
        rw [e1, e2]
        simp only [Bool.false_eq_true, if_false]
        omega
      · have e1 : (decide (d ∉ processed ++ [c])) = true := by simp [hdp, hdc]
        have e2 : (decide (d ∉ processed)) = true := by simpa using hdp
        rw [e1, e2]
        simp only [if_true, List.length_cons]
        omega

/-- Two steps of a well-formed plan with the same index are equal. -/
theorem index_inj (steps : List PlanStep) (h : (indicesOf steps).Nodup)
    (s t : PlanStep) (hs : s ∈ steps) (ht : t ∈ steps) (he : s.index = t.index) :
    s = t := by
  induction steps with
  | nil => simp at hs
  | cons u rest ih =>
    simp [indicesOf] at h
    rcases List.mem_cons.mp hs with rfl | hs' <;> rcases List.mem_cons.mp ht with rfl | ht'
    · rfl
    · exact absurd he.symm (h.1 t ht')
    · exact absurd he (h.1 s hs')
    · exact ih h.2 hs' ht'

/-- A plan index names a member step. -/
theorem mem_of_index (steps : List PlanStep) (i : Nat) (hi : i ∈ indicesOf steps) :
    ∃ s ∈ steps, s.index = i := by
  simp [indicesOf] at hi
  obtain ⟨s, hs, he⟩ := hi
  exact ⟨s, hs, he⟩

/-- The loop-head invariant of the Kahn loop in `topologicalSort`:
`sorted` is the output so far, `queue` the pending FIFO queue, `m` the
current in-degree map. -/
structure KahnInv (steps : List PlanStep) (m : JsMap Nat Int) (queue : List Nat)
    (sorted : List PlanStep) : Prop where
  nodup : (sorted.map (fun s => s.index) ++ queue).Nodup
  subIdx : ∀ x ∈ sorted.map (fun s => s.index) ++ queue, x ∈ indicesOf steps
  sortedMem : ∀ s ∈ sorted, s ∈ steps
  depsBefore : ∀ (pre post : List PlanStep) (s : PlanStep), sorted = pre ++ s :: post →
      ∀ d ∈ s.dependsOn, d ∈ pre.map (fun t => t.index)
  degEq : ∀ s ∈ steps, JsMap.get m s.index
      = some (remainingDeg s (sorted.map (fun t => t.index)))
  ready : ∀ s ∈ steps,
      (s.index ∈ sorted.map (fun t => t.index) ∨ s.index ∈ queue)
        ↔ (∀ d ∈ s.dependsOn, d ∈ sorted.map (fun t => t.index))

/-- Splitting a `pre ++ s :: post` decomposition of `sorted ++ [c]`. -/
theorem split_concat {α : Type} (pre post sorted : List α) (s c : α)
    (h : pre ++ s :: post = sorted ++ [c]) :
    (pre = sorted ∧ s = c ∧ post = []) ∨
    (∃ post', post = post' ++ [c] ∧ sorted = pre ++ s :: post') := by
  rcases List.eq_nil_or_concat post with rfl | ⟨post', a, rfl⟩
  · left
    have h' : pre ++ [s] = sorted ++ [c] := by simpa using h
    obtain ⟨h1, h2⟩ := List.append_inj' h' (by simp)
    simp at h2
    exact ⟨h1, h2, rfl⟩
  · right
    have h' : (pre ++ s :: post') ++ [a] = sorted ++ [c] := by
      simpa using h
    obtain ⟨h1, h2⟩ := List.append_inj' h' (by simp)
    simp at h2
    exact ⟨post', by simp [List.concat_eq_append, h2], h1.symm⟩

theorem count_filter_not_mem (processed : List Nat) (c : Nat) (hc : c ∉ processed)
    (l : List Nat) :
    (l.filter (fun d => decide (d ∉ processed))).count c = l.count c := by
  induction l with
  | nil => rfl
  | cons d rest ih =>
    simp only [List.filter_cons, List.count_cons]
    by_cases hdc : d = c
    · have e2 : (decide (d ∉ processed)) = true := by simpa [hdc] using hc
      rw [e2]
      simp only [if_true, List.count_cons, ih]
    · by_cases hdp : d ∈ processed
      · have e2 : (decide (d ∉ processed)) = false := by simpa using hdp
        rw [e2]
        simp only [Bool.false_eq_true, if_false, ih]
        simp [hdc]
      · have e2 : (decide (d ∉ processed)) = true := by simpa using hdp
        rw [e2]
        simp only [if_true, List.count_cons, ih]

theorem count_succ_le_length (l : List Nat) (c d : Nat) (hd : d ∈ l) (hdc : d ≠ c) :
    l.count c + 1 ≤ l.length := by
  induction l with
  | nil => simp at hd
  | cons x rest ih =>
    rcases List.mem_cons.mp hd with rfl | hd'
    · have : rest.count c ≤ rest.length := List.count_le_length c rest
      simp [List.count_cons, Ne.symm hdc]
      omega
    · have := ih hd'
      simp only [List.count_cons, List.length_cons]
      split <;> omega

theorem length_eq_count_of_all_eq (l : List Nat) (c : Nat) (h : ∀ x ∈ l, x = c) :
    l.length = l.count c := by
  induction l with
  | nil => rfl
  | cons x rest ih =>
    have hx : x = c := h x (by simp)
    simp [List.count_cons, hx, ih (fun y hy => h y (by simp [hy]))]

/-- If some dependency `d ≠ c` is still unprocessed, the remaining
degree strictly exceeds the number of `c`-edges. -/
theorem remainingDeg_gt_count (s : PlanStep) (processed : List Nat) (c : Nat)
    (hc : c ∉ processed) (d : Nat) (hd : d ∈ s.dependsOn) (hdp : d ∉ processed)
    (hdc : d ≠ c) :
    (s.dependsOn.count c : Int) + 1 ≤ remainingDeg s processed := by
  have hmem : d ∈ s.dependsOn.filter (fun d => decide (d ∉ processed)) :=
    List.mem_filter.mpr ⟨hd, by simpa using hdp⟩
  have h1 := count_succ_le_length _ c d hmem hdc
  have h2 := count_filter_not_mem processed c hc s.dependsOn
  unfold remainingDeg
  omega

/-- If every unprocessed dependency equals `c`, the remaining degree is
at most the number of `c`-edges. -/
theorem remainingDeg_le_count (s : PlanStep) (processed : List Nat) (c : Nat)
    (hall : ∀ d ∈ s.dependsOn, d ∉ processed → d = c) :
    remainingDeg s processed ≤ (s.dependsOn.count c : Int) := by
  have h1 : ∀ x ∈ s.dependsOn.filter (fun d => decide (d ∉ processed)), x = c := by
    intro x hx
    obtain ⟨hx1, hx2⟩ := List.mem_filter.mp hx
    exact hall x hx1 (by simpa using hx2)
  have h2 := length_eq_count_of_all_eq _ c h1
  have h3 : (s.dependsOn.filter (fun d => decide (d ∉ processed))).count c
      ≤ s.dependsOn.count c :=
    (List.filter_sublist _).count_le _
  unfold remainingDeg
  omega

/-- One iteration of the Kahn loop preserves the invariant: the popped
index names a member step, and the decremented map, extended queue and
extended output satisfy `KahnInv` again. -/
theorem kahn_step (steps : List PlanStep) (hWF : WFSteps steps)
    (m : JsMap Nat Int) (current : Nat) (queue : List Nat) (sorted : List PlanStep)
    (inv : KahnInv steps m (current :: queue) sorted) :
    ∃ s_c : PlanStep, s_c ∈ steps ∧ s_c.index = current ∧
      JsMap.get (buildStepMap steps) current = some s_c ∧
      KahnInv steps
        (((adjacencyOf steps current).foldl decrementNeighbor (m, queue)).1)
        (((adjacencyOf steps current).foldl decrementNeighbor (m, queue)).2)
        (sorted ++ [s_c]) := by
  obtain ⟨hnodupIdx, hdeps⟩ := hWF
  have hcur_idx : current ∈ indicesOf steps :=
    inv.subIdx current (by simp)
  obtain ⟨s_c, hs_c, hs_c_idx⟩ := mem_of_index steps current hcur_idx
  have hmap : JsMap.get (buildStepMap steps) current = some s_c := by
    rw [← hs_c_idx]
    exact buildStepMap_get steps hnodupIdx s_c hs_c
  obtain ⟨push, hq2, hpushnodup, hpushmem⟩ :=
    decFold_queue (adjacencyOf steps current) m queue
  have hnodup_old := inv.nodup
  rw [List.nodup_append] at hnodup_old
  have hcur_not_proc : current ∉ sorted.map (fun t => t.index) := by
    intro hmem
    exact hnodup_old.2.2 hmem (by simp)
  have hcur_not_queue : current ∉ queue := by
    have := hnodup_old.2.1
    simp at this
    exact this.1
  have hready_cur : ∀ d ∈ s_c.dependsOn, d ∈ sorted.map (fun t => t.index) :=
    (inv.ready s_c hs_c).mp (Or.inr (by simp [hs_c_idx]))
  -- every pushed index is a plan index
  have hpush_idx : ∀ x ∈ push, x ∈ indicesOf steps := by
    intro x hx
    by_contra hxi
    obtain ⟨h1, h2⟩ := (hpushmem x).mp hx
    rw [adjacencyOf_count_zero steps current x hxi] at h2
    simp at h2
    omega
  -- the two degree bounds for a pushed index
  have hpush_cond : ∀ s ∈ steps, s.index ∈ push →
      1 ≤ remainingDeg s (sorted.map (fun t => t.index)) ∧
      remainingDeg s (sorted.map (fun t => t.index)) ≤ (s.dependsOn.count current : Int) := by
    intro s hs hx
    obtain ⟨h1, h2⟩ := (hpushmem s.index).mp hx
    rw [inv.degEq s hs] at h1 h2
    rw [adjacencyOf_count steps hnodupIdx current s hs] at h2
    simp at h1 h2
    exact ⟨h1, h2⟩
  -- a pushed index was seen nowhere before
  have hpush_fresh : ∀ s ∈ steps, s.index ∈ push →
      s.index ∉ sorted.map (fun t => t.index) ∧ s.index ≠ current ∧ s.index ∉ queue := by
    intro s hs hx
    obtain ⟨h1, h2⟩ := hpush_cond s hs hx
    have hnotall : ¬∀ d ∈ s.dependsOn, d ∈ sorted.map (fun t => t.index) := by
      intro hall
      rw [← remainingDeg_eq_zero] at hall
      omega
    have hnor : ¬(s.index ∈ sorted.map (fun t => t.index) ∨ s.index ∈ current :: queue) := by
      intro hor
      exact hnotall ((inv.ready s hs).mp hor)
    push_neg at hnor
    obtain ⟨hn1, hn2⟩ := hnor
    simp at hn2
    exact ⟨hn1, hn2.1, hn2.2⟩
  have hpush_fresh' : ∀ x ∈ push,
      x ∉ sorted.map (fun t => t.index) ∧ x ≠ current ∧ x ∉ queue := by
    intro x hx
    obtain ⟨s, hs, rfl⟩ := mem_of_index steps x (hpush_idx x hx)
    exact hpush_fresh s hs hx
  refine ⟨s_c, hs_c, hs_c_idx, hmap, ?_⟩
  have hmapappend : (sorted ++ [s_c]).map (fun t => t.index)
      = sorted.map (fun t => t.index) ++ [current] := by
    simp [hs_c_idx]
  constructor
  -- nodup
  · rw [hq2, hmapappend]
    have hshape : (sorted.map (fun t => t.index) ++ [current]) ++ (queue ++ push)
        = (sorted.map (fun t => t.index) ++ current :: queue) ++ push := by
      simp
    rw [hshape]
    refine List.Nodup.append inv.nodup hpushnodup ?_
    intro x hx hx'
    obtain ⟨f1, f2, f3⟩ := hpush_fresh' x hx'
    rcases List.mem_append.mp hx with hxa | hxb
    · exact f1 hxa
    · rcases List.mem_cons.mp hxb with rfl | hxq
      · exact f2 rfl
      · exact f3 hxq
  -- subIdx
  · intro x hx
    rw [hq2, hmapappend] at hx
    rcases List.mem_append.mp hx with hxa | hxb
    · rcases List.mem_append.mp hxa with hxc | hxd
      · exact inv.subIdx x (by simp [hxc])
      · simp at hxd
        subst hxd
        exact hcur_idx
    · rcases List.mem_append.mp hxb with hxq | hxp
      · exact inv.subIdx x (by simp [hxq])
      · exact hpush_idx x hxp
  -- sortedMem
  · intro s hs
    rcases List.mem_append.mp hs with hsa | hsb
    · exact inv.sortedMem s hsa
    · simp at hsb
      subst hsb
      exact hs_c
  -- depsBefore
  · intro pre post s hsplit d hd
    rcases split_concat pre post sorted s s_c hsplit.symm with ⟨rfl, rfl, rfl⟩ | ⟨post', rfl, hsorted⟩
    · exact hready_cur d hd
    · exact inv.depsBefore pre post' s hsorted d hd
  -- degEq
  · intro s hs
    rw [decFold_inDeg, hmapappend]
    have hcnt := adjacencyOf_count steps hnodupIdx current s hs
    have happ := remainingDeg_append s (sorted.map (fun t => t.index)) current hcur_not_proc
    by_cases hc0 : (adjacencyOf steps current).count s.index = 0
    · rw [if_pos hc0, inv.degEq s hs, happ]
      rw [hcnt] at hc0
      simp [hc0]
    · rw [if_neg hc0, inv.degEq s hs, happ, ← hcnt]
      simp
  -- ready
  · intro s hs
    rw [hq2, hmapappend]
    constructor
    · intro hmem
      intro d hd
      rcases hmem with hmema | hmemb
      · rcases List.mem_append.mp hmema with hma | hmb
        · exact List.mem_append.mpr (Or.inl ((inv.ready s hs).mp (Or.inl hma) d hd))
        · simp at hmb
          have hseq : s = s_c := index_inj steps hnodupIdx s s_c hs hs_c (by rw [hmb, hs_c_idx])
          subst hseq
          exact List.mem_append.mpr (Or.inl (hready_cur d hd))
      · rcases List.mem_append.mp hmemb with hmq | hmp
        · exact List.mem_append.mpr
            (Or.inl ((inv.ready s hs).mp (Or.inr (by simp [hmq])) d hd))
        · -- pushed: remaining degree is exhausted by current's edges
          obtain ⟨h1, h2⟩ := hpush_cond s hs hmp
          by_contra hnd
          simp at hnd
          have hdnp : d ∉ sorted.map (fun t => t.index) := by
            simp
            exact hnd.1
          have hdnc : d ≠ current := hnd.2
          have := remainingDeg_gt_count s (sorted.map (fun t => t.index)) current
            hcur_not_proc d hd hdnp hdnc
          omega
    · intro hall
      by_cases hp1 : s.index ∈ sorted.map (fun t => t.index)
      · exact Or.inl (List.mem_append.mpr (Or.inl hp1))
      by_cases hp2 : s.index = current
      · exact Or.inl (List.mem_append.mpr (Or.inr (by simp [hp2])))
      by_cases hp3 : s.index ∈ queue
      · exact Or.inr (List.mem_append.mpr (Or.inl hp3))
      -- otherwise s.index must be freshly pushed
      have hnotall : ¬∀ d ∈ s.dependsOn, d ∈ sorted.map (fun t => t.index) := by
        intro hall'
        rcases (inv.ready s hs).mpr hall' with hq | hcq
        · exact hp1 hq
        · rcases List.mem_cons.mp hcq with he | hq'
          · exact hp2 he
          · exact hp3 hq'
      push_neg at hnotall
      obtain ⟨d₀, hd₀, hd₀np⟩ := hnotall
      have hd₀c : d₀ = current := by
        rcases List.mem_append.mp (hall d₀ hd₀) with h | h
        · exact absurd h hd₀np
        · simpa using h
      subst hd₀c
      have hr1 : 1 ≤ remainingDeg s (sorted.map (fun t => t.index)) :=
        remainingDeg_pos s _ d₀ hd₀ hd₀np
      have hr2 : remainingDeg s (sorted.map (fun t => t.index))
          ≤ (s.dependsOn.count d₀ : Int) := by
        refine remainingDeg_le_count s _ d₀ ?_
        intro d hd hdnp
        rcases List.mem_append.mp (hall d hd) with h | h
        · exact absurd h hdnp
        · simpa using h
      refine Or.inr (List.mem_append.mpr (Or.inr ?_))
      rw [hpushmem s.index, inv.degEq s hs,
        adjacencyOf_count steps hnodupIdx d₀ s hs]
      simp
      exact ⟨hr1, hr2⟩

/-- The facts the Kahn loop guarantees once the queue has emptied. -/
structure KahnFinal (steps : List PlanStep) (result : List PlanStep) : Prop where
  nodup : (result.map (fun s => s.index)).Nodup
  mem : ∀ s ∈ result, s ∈ steps
  depsBefore : ∀ (pre post : List PlanStep) (s : PlanStep), result = pre ++ s :: post →
      ∀ d ∈ s.dependsOn, d ∈ pre.map (fun t => t.index)
  closed : ∀ s ∈ steps,
      s.index ∈ result.map (fun t => t.index)
        ↔ ∀ d ∈ s.dependsOn, d ∈ result.map (fun t => t.index)

theorem kahnFinal_of_inv (steps : List PlanStep) (m : JsMap Nat Int)
    (sorted : List PlanStep) (inv : KahnInv steps m [] sorted) :
    KahnFinal steps sorted := by
  refine ⟨?_, inv.sortedMem, inv.depsBefore, ?_⟩
  · have := inv.nodup
    simpa using this
  · intro s hs
    have := inv.ready s hs
    simpa using this

theorem length_le_of_nodup_subset (l L : List Nat) (hn : l.Nodup)
    (hsub : ∀ x ∈ l, x ∈ L) : l.length ≤ L.length := by
  classical
  calc l.length = l.toFinset.card := (List.toFinset_card_of_nodup hn).symm
  _ ≤ L.toFinset.card := Finset.card_le_card (fun x hx => by
      simp at hx ⊢
      exact hsub x hx)
  _ ≤ L.length := L.toFinset_card_le

/-- Running the Kahn loop from any invariant state with enough fuel
reaches a final state satisfying `KahnFinal`. -/
theorem kahnLoop_final (steps : List PlanStep) (hWF : WFSteps steps) :
    ∀ (fuel : Nat) (queue : List Nat) (m : JsMap Nat Int) (sorted : List PlanStep),
      KahnInv steps m queue sorted →
      steps.length ≤ fuel + sorted.length →
      KahnFinal steps
        (kahnLoop (buildStepMap steps) (buildAdjacency steps) fuel queue m sorted) := by
  intro fuel
  induction fuel with
  | zero =>
    intro queue m sorted inv hfuel
    cases queue with
    | nil => exact kahnFinal_of_inv steps m sorted inv
    | cons c q =>
      exfalso
      have hlen := length_le_of_nodup_subset
        (sorted.map (fun s => s.index) ++ c :: q) (indicesOf steps)
        inv.nodup inv.subIdx
      simp [indicesOf] at hlen
      omega
  | succ fuel ih =>
    intro queue m sorted inv hfuel
    cases queue with
    | nil => exact kahnFinal_of_inv steps m sorted inv
    | cons c q =>
      obtain ⟨s_c, hs_c, hidx, hmap, inv'⟩ := kahn_step steps hWF m c q sorted inv
      have hunfold : kahnLoop (buildStepMap steps) (buildAdjacency steps) (fuel + 1) (c :: q) m sorted
          = kahnLoop (buildStepMap steps) (buildAdjacency steps) fuel
              (((adjacencyOf steps c).foldl decrementNeighbor (m, q)).2)
              (((adjacencyOf steps c).foldl decrementNeighbor (m, q)).1)
              (sorted ++ [s_c]) := by
        simp only [kahnLoop, hmap, buildAdjacency_getD steps c]
      rw [hunfold]
      refine ih _ _ _ inv' ?_
      simp only [List.length_append, List.length_cons, List.length_nil]
      omega

theorem remainingDeg_nil (s : PlanStep) :
    remainingDeg s [] = (s.dependsOn.length : Int) := by
  simp [remainingDeg]

/-- The state entering the Kahn loop satisfies the invariant. -/
theorem kahnInv_init (steps : List PlanStep) (hWF : WFSteps steps) :
    KahnInv steps (buildInDegree steps) (initialQueue (buildInDegree steps)) [] := by
  obtain ⟨hnodupIdx, hdeps⟩ := hWF
  rw [initialQueue_eq steps hnodupIdx]
  constructor
  · simp only [List.map_nil, List.nil_append]
    have hsub : List.Sublist
        ((steps.filter (fun s => s.dependsOn = [])).map (fun s => s.index))
        (steps.map (fun s => s.index)) :=
      (List.filter_sublist steps).map _
    exact hsub.nodup hnodupIdx
  · intro x hx
    simp at hx
    obtain ⟨s, ⟨hs, -⟩, rfl⟩ := hx
    simp [indicesOf]
    exact ⟨s, hs, rfl⟩
  · intro s hs
    simp at hs
  · intro pre post s hsplit
    exact absurd hsplit (by simp)
  · intro s hs
    simp only [List.map_nil]
    rw [buildInDegree_get steps hnodupIdx s hs, remainingDeg_nil]
  · intro s hs
    simp only [List.map_nil]
    constructor
    · intro hmem
      rcases hmem with h | h
      · simp at h
      · simp at h
        obtain ⟨t, ⟨ht, htdeps⟩, hti⟩ := h
        have : t = s := index_inj steps hnodupIdx t s ht hs hti
        subst this
        simp [htdeps]
    · intro hall
      right
      have hdeps_nil : s.dependsOn = [] := by
        cases hd : s.dependsOn with
        | nil => rfl
        | cons d rest =>
          have := hall d (by simp [hd])
          simp at this
      simp
      exact ⟨s, ⟨hs, hdeps_nil⟩, rfl⟩

/-- `topologicalSort` of a well-formed plan satisfies all final facts. -/
theorem topologicalSort_final (steps : List PlanStep) (hWF : WFSteps steps) :
    KahnFinal steps (topologicalSort steps) := by
  unfold topologicalSort
  exact kahnLoop_final steps hWF steps.length
    (initialQueue (buildInDegree steps)) (buildInDegree steps) []
    (kahnInv_init steps hWF) (by simp)

/-- Under an acyclicity certificate, every plan index appears in the output. -/
theorem kahnFinal_complete (steps result : List PlanStep) (hWF : WFSteps steps)
    (F : KahnFinal steps result)
    (rank : Nat → Nat) (hrank : ∀ s ∈ steps, ∀ d ∈ s.dependsOn, rank d < rank s.index) :
    ∀ s ∈ steps, s.index ∈ result.map (fun t => t.index) := by
  have H : ∀ n, ∀ s ∈ steps, rank s.index < n → s.index ∈ result.map (fun t => t.index) := by
    intro n
    induction n with
    | zero => intro s hs h; omega
    | succ n ih =>
      intro s hs h
      rw [F.closed s hs]
      intro d hd
      obtain ⟨t, ht, hti⟩ := mem_of_index steps d (hWF.2 s hs d hd)
      have hlt : rank d < rank s.index := hrank s hs d hd
      have := ih t ht (by rw [hti]; omega)
      rwa [hti] at this
  intro s hs
  exact H (rank s.index + 1) s hs (by omega)

/-- Transitive dependency between indices, along the `dependsOn` edges
of a plan's steps. -/
inductive DependsOnTrans (steps : List PlanStep) : Nat → Nat → Prop
  | direct (s : PlanStep) (d : Nat) :
      s ∈ steps → d ∈ s.dependsOn → DependsOnTrans steps s.index d
  | tail (s : PlanStep) (d j : Nat) :
      s ∈ steps → d ∈ s.dependsOn → DependsOnTrans steps d j →
      DependsOnTrans steps s.index j

/-- No index of a "blocked core" (a set of indices each of which has a
dependency inside the set) ever appears in a `KahnFinal` output. -/
theorem kahnFinal_cycle_excluded (steps result : List PlanStep)
    (F : KahnFinal steps result) (cyc : List Nat)
    (hcyc : ∀ i ∈ cyc, ∃ s ∈ steps, s.index = i ∧ ∃ d ∈ s.dependsOn, d ∈ cyc)
    (hnodupIdx : (indicesOf steps).Nodup) :
    ∀ i ∈ cyc, i ∉ result.map (fun t => t.index) := by
  have H : ∀ n (pre post : List PlanStep) (s : PlanStep),
      result = pre ++ s :: post → pre.length = n → s.index ∉ cyc := by
    intro n
    induction n using Nat.strong_induction_on with
    | _ n ih =>
      intro pre post s hsplit hlen hscyc
      obtain ⟨t, ht, hti, d, hd, hdcyc⟩ := hcyc s.index hscyc
      have hts : t = s := by
        have hsr : s ∈ result := by rw [hsplit]; simp
        exact index_inj steps hnodupIdx t s ht (F.mem s hsr) hti
      subst hts
      have hdpre : d ∈ pre.map (fun u => u.index) := F.depsBefore pre post t hsplit d hd
      simp at hdpre
      obtain ⟨u, hu, hui⟩ := hdpre
      obtain ⟨pre₁, pre₂, hpre⟩ := List.append_of_mem hu
      have hsplit' : result = pre₁ ++ u :: (pre₂ ++ t :: post) := by
        rw [hsplit, hpre]
        simp
      have hlt : pre₁.length < n := by
        rw [← hlen, hpre]
        simp
      exact ih pre₁.length hlt pre₁ (pre₂ ++ t :: post) u hsplit' rfl (by rw [hui]; exact hdcyc)
  intro i hicyc hi
  simp at hi
  obtain ⟨s, hs, hsi⟩ := hi
  obtain ⟨pre, post, hsplit⟩ := List.append_of_mem hs
  exact H pre.length pre post s hsplit rfl (by rw [hsi]; exact hicyc)

/-- A step transitively depending on an excluded index is itself excluded. -/
theorem kahnFinal_downstream_excluded (steps result : List PlanStep)
    (F : KahnFinal steps result) :
    ∀ i c, DependsOnTrans steps i c → c ∉ result.map (fun t => t.index) →
      i ∉ result.map (fun t => t.index) := by
  intro i c hdep
  induction hdep with
  | direct s d hs hd =>
    intro hc hmem
    exact hc ((F.closed s hs).mp hmem d hd)
  | tail s d j hs hd hrec ih =>
    intro hc hmem
    exact ih hc ((F.closed s hs).mp hmem d hd)

/-- C2: for every well-formed plan whose `dependsOn` graph is acyclic
(witnessed by a rank function), `topologicalSort` returns an order that
contains each step of the plan exactly once, contains nothing else, and
places every step after all steps in its `dependsOn` set. -/
theorem topologicalSort_dag_order (steps : List PlanStep)
    (hWF : WFSteps steps)
    (hacyc : ∃ rank : Nat → Nat, ∀ s ∈ steps, ∀ d ∈ s.dependsOn, rank d < rank s.index) :
    (∀ s ∈ steps, (topologicalSort steps).count s = 1) ∧
    (∀ s ∈ topologicalSort steps, s ∈ steps) ∧
    (∀ (pre post : List PlanStep) (s : PlanStep),
        topologicalSort steps = pre ++ s :: post →
        ∀ d ∈ s.dependsOn, ∃ t ∈ pre, t.index = d) := by
  obtain ⟨rank, hrank⟩ := hacyc
  have F := topologicalSort_final steps hWF
  have hnodup : (topologicalSort steps).Nodup := F.nodup.of_map
  refine ⟨?_, F.mem, ?_⟩
  · intro s hs
    have hidx : s.index ∈ (topologicalSort steps).map (fun t => t.index) :=
      kahnFinal_complete steps (topologicalSort steps) hWF F rank hrank s hs
    simp at hidx
    obtain ⟨t, ht, hti⟩ := hidx
    have : t = s := index_inj steps hWF.1 t s (F.mem t ht) hs hti
    subst this
    exact List.count_eq_one_of_mem hnodup ht
  · intro pre post s hsplit d hd
    have := F.depsBefore pre post s hsplit d hd
    simp at this
    obtain ⟨t, ht, hti⟩ := this
    exact ⟨t, ht, hti⟩

/-- A concrete step used by the witness plans. -/
def mkStep (i : Nat) (deps : List Nat) : PlanStep :=
  { index := i, label := "", description := "", dependsOn := deps,
    toolHints := [], status := .pending }

/-- The diamond plan of the design's test scenario: A with no
dependencies, B and C depending on A, D depending on B and C. -/
def diamondSteps : List PlanStep :=
  [mkStep 0 [], mkStep 1 [0], mkStep 2 [0], mkStep 3 [1, 2]]

/-- Witness for C2 at the diamond plan. -/
theorem topologicalSort_dag_order_witness :
    (∀ s ∈ diamondSteps, (topologicalSort diamondSteps).count s = 1) ∧
    (∀ s ∈ topologicalSort diamondSteps, s ∈ diamondSteps) ∧
    (∀ (pre post : List PlanStep) (s : PlanStep),
        topologicalSort diamondSteps = pre ++ s :: post →
        ∀ d ∈ s.dependsOn, ∃ t ∈ pre, t.index = d) :=
  topologicalSort_dag_order diamondSteps (by decide)
    ⟨fun i => i, by decide⟩

/-- C7: when the plan graph contains a blocked cycle, `topologicalSort`
(which is a total function and raises no cycle error) silently excludes
from its output every step whose index lies in the cycle and every step
transitively depending on such an index. -/
theorem topologicalSort_cycle_silent (steps : List PlanStep)
    (hWF : WFSteps steps) (cyc : List Nat)
    (hcyc : ∀ i ∈ cyc, ∃ s ∈ steps, s.index = i ∧ ∃ d ∈ s.dependsOn, d ∈ cyc) :
    (∀ i ∈ cyc, i ∉ (topologicalSort steps).map (fun t => t.index)) ∧
    (∀ s ∈ steps, (∃ c ∈ cyc, DependsOnTrans steps s.index c) →
      s ∉ topologicalSort steps) := by
  have F := topologicalSort_final steps hWF
  have hex := kahnFinal_cycle_excluded steps (topologicalSort steps) F cyc hcyc hWF.1
  refine ⟨hex, ?_⟩
  intro s hs ⟨c, hc, hdep⟩ hmem
  have : s.index ∉ (topologicalSort steps).map (fun t => t.index) :=
    kahnFinal_downstream_excluded steps (topologicalSort steps) F s.index c hdep
      (hex c hc)
  exact this (by simp; exact ⟨s, hmem, rfl⟩)

/-- A plan with a two-cycle `{1, 2}` plus an independent step `0` and a
downstream step `3` depending on `1`. -/
def cyclicSteps : List PlanStep :=
  [mkStep 0 [], mkStep 1 [2], mkStep 2 [1], mkStep 3 [1]]

/-- Witness for C7 at the cyclic plan. -/
theorem topologicalSort_cycle_silent_witness :
    (∀ i ∈ [1, 2], i ∉ (topologicalSort cyclicSteps).map (fun t => t.index)) ∧
    (∀ s ∈ cyclicSteps, (∃ c ∈ [1, 2], DependsOnTrans cyclicSteps s.index c) →
      s ∉ topologicalSort cyclicSteps) :=
  topologicalSort_cycle_silent cyclicSteps (by decide) [1, 2] (by decide)

/-! ## Plan scheduler: `ExecutorAgent.executePlan` and `skipDependents`

`executeStep` and `retryStep` drive an external LLM stream; their
observable outcome for the scheduler is a success (with collected node
ids) or a failure (with an error string), so they are modelled by
oracle functions `Nat → AttemptOutcome` keyed by step index.  Statuses
are mutated on the plan's step list; the unique step with a given index
(§3 invariant) plays the role of the shared TS object. -/

/-- Abstract outcome of one `executeStep` / `retryStep` attempt. -/
inductive AttemptOutcome
  | success (nodeIds : List String)
  | failure (error : String)
deriving Repr, DecidableEq

/-- The `StepResult` literal `executeStep` returns. -/
def firstResultOf (i : Nat) : AttemptOutcome → StepResult
  | .success ids => { stepIndex := i, status := .success, nodeIds := some ids }
  | .failure e => { stepIndex := i, status := .failure, error := some e }

/-- The `StepResult` literal `retryStep` returns (it collects no node ids). -/
def retryResultOf (i : Nat) : AttemptOutcome → StepResult
  | .success _ => { stepIndex := i, status := .success }
  | .failure e => { stepIndex := i, status := .failure, error := some e }

/-- `step.status = st` for the (unique, by the §3 invariant) step with
index `i`. -/
def setStatus (steps : List PlanStep) (i : Nat) (st : StepStatus) : List PlanStep :=
  steps.map (fun s => if s.index = i then { s with status := st } else s)

mutual
/-- `ExecutorAgent.skipDependents`, with fuel bounding the recursion
depth; each recursive call follows a pending→skipped marking, so
`steps.length + 1` units are always enough. -/
def skipDependentsF : Nat → Nat → List PlanStep → List PlanStep
  | 0, _, steps => steps
  | fuel + 1, failedIndex, steps => skipLoopF fuel failedIndex steps.length 0 steps
termination_by fuel _ _ => (fuel, 0)

/-- The `for (const step of steps)` loop of `skipDependents`: `todo`
counts the remaining positions, `p` is the current position; array
length never changes, so iterating positions is the JS iteration. -/
def skipLoopF : Nat → Nat → Nat → Nat → List PlanStep → List PlanStep
  | _, _, 0, _, steps => steps
  | fuel, failedIndex, todo + 1, p, steps =>
    match steps[p]? with
    | none => steps
    | some s =>
      if failedIndex ∈ s.dependsOn ∧ s.status = .pending then
        skipLoopF fuel failedIndex todo (p + 1)
          (skipDependentsF fuel s.index (steps.set p { s with status := .skipped }))
      else
        skipLoopF fuel failedIndex todo (p + 1) steps
termination_by fuel _ todo _ _ => (fuel, todo)
end

/-- The `for (const step of sortedSteps)` loop of `executePlan`, over
the sorted step indices. -/
def execLoop (firstA retryA : Nat → AttemptOutcome) (aborted : Bool) :
    List Nat → List PlanStep → List StepResult → List PlanStep × List StepResult
  | [], state, results => (state, results)
  | i :: rest, state, results =>
    if aborted then (state, results) else
      let state₁ := setStatus state i .active
      let result := firstResultOf i (firstA i)
      let results₁ := results ++ [result]
      let state₂ := setStatus state₁ i (if result.status = .success then .done else .failed)
      if result.status = .failure then
        let retryResult := retryResultOf i (retryA i)
        if retryResult.status = .failure then
          (skipDependentsF (state₂.length + 1) i state₂, results₁)
        else
          execLoop firstA retryA aborted rest (setStatus state₂ i .done)
            (results₁.set (results₁.length - 1) retryResult)
      else
        execLoop firstA retryA aborted rest state₂ results₁

/-- `ExecutorAgent.executePlan`: returns the plan's step list with its
final statuses, paired with the `StepResult` list the method returns. -/
def executePlan (firstA retryA : Nat → AttemptOutcome) (aborted : Bool) (plan : Plan) :
    List PlanStep × List StepResult :=
  execLoop firstA retryA aborted ((topologicalSort plan.steps).map (fun s => s.index))
    plan.steps []

/-! ### Specification of `skipDependents`: monotone marking and saturation -/

/-- Number of steps whose status is `pending`. -/
def pendingCount (steps : List PlanStep) : Nat :=
  (steps.filter (fun s => s.status = .pending)).length

/-- `R` is `st` with some pending steps marked skipped, pointwise. -/
def MarkedFrom (st R : List PlanStep) : Prop :=
  ∀ p : Nat, R[p]? = st[p]? ∨
    (∃ s, st[p]? = some s ∧ s.status = .pending ∧
      R[p]? = some { s with status := .skipped })

theorem MarkedFrom.refl (st : List PlanStep) : MarkedFrom st st :=
  fun _ => Or.inl rfl

theorem MarkedFrom.trans {a b c : List PlanStep}
    (h1 : MarkedFrom a b) (h2 : MarkedFrom b c) : MarkedFrom a c := by
  intro p
  rcases h2 p with h | ⟨s, hbs, hpend, hcs⟩
  · rcases h1 p with h' | ⟨s, has, hpend, hbs⟩
    · exact Or.inl (h.trans h')
    · exact Or.inr ⟨s, has, hpend, h.trans hbs⟩
  · rcases h1 p with h' | ⟨s', has, hpend', hbs'⟩
    · exact Or.inr ⟨s, h'.symm.trans hbs, hpend, hcs⟩
    · rw [hbs'] at hbs
      simp at hbs
      rw [← hbs] at hpend
      simp at hpend
  
theorem MarkedFrom.length_eq {st R : List PlanStep} (h : MarkedFrom st R) :
    R.length = st.length := by
  by_contra hne
  rcases Nat.lt_or_ge R.length st.length with hlt | hge
  · rcases h R.length with h' | ⟨s, hs, -, hRs⟩
    · rw [List.getElem?_eq_none (Nat.le_refl _)] at h'
      rw [List.getElem?_eq_getElem hlt] at h'
      simp at h'
    · rw [List.getElem?_eq_none (Nat.le_refl _)] at hRs
      simp at hRs
  · have hlt : st.length < R.length := by omega
    rcases h st.length with h' | ⟨s, hs, -, hRs⟩
    · rw [List.getElem?_eq_none (Nat.le_refl _), List.getElem?_eq_getElem hlt] at h'
      simp at h'
    · rw [List.getElem?_eq_none (Nat.le_refl _)] at hs
      simp at hs

theorem MarkedFrom.pending_backward {st R : List PlanStep} (h : MarkedFrom st R)
    {p : Nat} {s : PlanStep} (hp : R[p]? = some s) (hpend : s.status = .pending) :
    st[p]? = some s := by
  rcases h p with h' | ⟨t, hts, htp, hRs⟩
  · rw [← h']; exact hp
  · rw [hRs] at hp
    simp at hp
    rw [← hp] at hpend
    simp at hpend

theorem MarkedFrom.nonpending_forward {st R : List PlanStep} (h : MarkedFrom st R)
    {p : Nat} {s : PlanStep} (hp : st[p]? = some s) (hpend : s.status ≠ .pending) :
    R[p]? = some s := by
  rcases h p with h' | ⟨t, hts, htp, hRs⟩
  · rw [h']; exact hp
  · rw [hp] at hts
    simp at hts
    rw [hts] at hpend
    exact absurd htp hpend

theorem pendingCount_cons (s : PlanStep) (rest : List PlanStep) :
    pendingCount (s :: rest)
      = (if s.status = .pending then 1 else 0) + pendingCount rest := by
  by_cases h : s.status = .pending <;> simp [pendingCount, List.filter_cons, h] <;> omega

theorem MarkedFrom.tail {s : PlanStep} {st' : List PlanStep} {r : PlanStep}
    {R' : List PlanStep} (h : MarkedFrom (s :: st') (r :: R')) :
    MarkedFrom st' R' := by
  intro p
  have := h (p + 1)
  simpa using this

theorem MarkedFrom.pc_le : ∀ {st R : List PlanStep}, MarkedFrom st R →
    pendingCount R ≤ pendingCount st := by
  intro st
  induction st with
  | nil =>
    intro R h
    have hlen := h.length_eq
    simp at hlen
    simp [hlen, pendingCount]
  | cons s st' ih =>
    intro R h
    have hlen := h.length_eq
    cases R with
    | nil => simp at hlen
    | cons r R' =>
      have h' : MarkedFrom st' R' := h.tail
      have h0 := h 0
      simp at h0
      rw [pendingCount_cons, pendingCount_cons]
      rcases h0 with rfl | ⟨hpend, hr⟩
      · have := ih h'
        omega
      · rw [hr, hpend]
        have := ih h'
        simp
        omega

theorem MarkedFrom.set_mark {st : List PlanStep} {p : Nat} {s : PlanStep}
    (hp : st[p]? = some s) (hpend : s.status = .pending) :
    MarkedFrom st (st.set p { s with status := .skipped }) := by
  intro q
  by_cases hq : p = q
  · subst hq
    right
    refine ⟨s, hp, hpend, ?_⟩
    have hlt : p < st.length := by
      by_contra hge
      rw [List.getElem?_eq_none (by omega)] at hp
      simp at hp
    exact List.getElem?_set_eq hlt
  · left
    exact List.getElem?_set_ne hq

theorem pendingCount_set_mark : ∀ (st : List PlanStep) (p : Nat) (s : PlanStep),
    st[p]? = some s → s.status = .pending →
    pendingCount (st.set p { s with status := .skipped }) + 1 = pendingCount st := by
  intro st
  induction st with
  | nil => intro p s hp; simp at hp
  | cons t rest ih =>
    intro p s hp hpend
    cases p with
    | zero =>
      simp at hp
      subst hp
      simp [List.set_cons_zero, pendingCount_cons, hpend]
      omega
    | succ p' =>
      simp at hp
      rw [List.set_cons_succ, pendingCount_cons, pendingCount_cons]
      have := ih p' s hp hpend
      omega

/-- Newly marked indices are saturated: no step left pending in `R`
depends on the index of a step that went pending→skipped. -/
def NewMarksSat (base R : List PlanStep) : Prop :=
  ∀ (q : Nat) (t u : PlanStep), R[q]? = some t → base[q]? = some u →
    u.status = .pending → t.status = .skipped →
    ∀ (j : Nat) (s : PlanStep), R[j]? = some s → s.status = .pending →
      t.index ∉ s.dependsOn

theorem NewMarksSat_refl (st : List PlanStep) : NewMarksSat st st := by
  intro q t u hqt hqu hupend htskip
  rw [hqt] at hqu
  simp at hqu
  rw [hqu] at htskip
  rw [htskip] at hupend
  simp at hupend

theorem pending_pc_pos (st : List PlanStep) (s : PlanStep) (hs : s ∈ st)
    (hpend : s.status = .pending) : 0 < pendingCount st := by
  have : s ∈ st.filter (fun s => s.status = .pending) :=
    List.mem_filter.mpr ⟨hs, by simp [hpend]⟩
  exact List.length_pos.mpr (List.ne_nil_of_mem this)

theorem mem_of_getElem? {α : Type} {l : List α} {p : Nat} {a : α}
    (h : l[p]? = some a) : a ∈ l := by
  have hlt : p < l.length := by
    by_contra hge
    rw [List.getElem?_eq_none (by omega)] at h
    simp at h
  rw [List.getElem?_eq_getElem hlt] at h
  simp at h
  rw [← h]
  exact List.getElem_mem hlt

theorem skipLoopF_no_pending : ∀ (todo fuel f p : Nat) (st : List PlanStep),
    pendingCount st = 0 → skipLoopF fuel f todo p st = st := by
  intro todo
  induction todo with
  | zero => intro fuel f p st _; rw [skipLoopF]
  | succ todo ih =>
    intro fuel f p st hpc
    rw [skipLoopF]
    cases hsp : st[p]? with
    | none => rfl
    | some s =>
      have hnp : ¬s.status = .pending := by
        intro hpend
        have := pending_pc_pos st s (mem_of_getElem? hsp) hpend
        omega
      simp only [hnp, and_false, if_false]
      exact ih fuel f (p + 1) st hpc

/-- Combined specification of `skipDependentsF` and `skipLoopF`:
the result is the input with some pending steps marked skipped
(`MarkedFrom`), no step left pending depends on the failed index
(over the scanned range), and no step left pending depends on any
newly marked index (`NewMarksSat`). -/
theorem skip_spec : ∀ fuel : Nat,
    (∀ (f : Nat) (st : List PlanStep), pendingCount st + 1 ≤ fuel →
      MarkedFrom st (skipDependentsF fuel f st) ∧
      (∀ (j : Nat) (s : PlanStep), (skipDependentsF fuel f st)[j]? = some s →
        s.status = .pending → f ∉ s.dependsOn) ∧
      NewMarksSat st (skipDependentsF fuel f st)) ∧
    (∀ (f todo p : Nat) (st : List PlanStep), pendingCount st ≤ fuel →
      MarkedFrom st (skipLoopF fuel f todo p st) ∧
      (∀ j, p ≤ j → j < p + todo → ∀ (s : PlanStep),
        (skipLoopF fuel f todo p st)[j]? = some s →
        s.status = .pending → f ∉ s.dependsOn) ∧
      NewMarksSat st (skipLoopF fuel f todo p st)) := by
  intro fuel
  induction fuel with
  | zero =>
    constructor
    · intro f st h
      omega
    · intro f todo p st h
      have h0 : pendingCount st = 0 := by omega
      rw [skipLoopF_no_pending todo 0 f p st h0]
      refine ⟨MarkedFrom.refl st, ?_, NewMarksSat_refl st⟩
      intro j _ _ s hj hpend
      have := pending_pc_pos st s (mem_of_getElem? hj) hpend
      omega
  | succ fuel ih =>
    have hS : ∀ (f : Nat) (st : List PlanStep), pendingCount st + 1 ≤ fuel + 1 →
        MarkedFrom st (skipDependentsF (fuel + 1) f st) ∧
        (∀ (j : Nat) (s : PlanStep), (skipDependentsF (fuel + 1) f st)[j]? = some s →
          s.status = .pending → f ∉ s.dependsOn) ∧
        NewMarksSat st (skipDependentsF (fuel + 1) f st) := by
      intro f st h
      rw [skipDependentsF]
      obtain ⟨hm, hsat, hmarks⟩ := ih.2 f st.length 0 st (by omega)
      refine ⟨hm, ?_, hmarks⟩
      intro j s hj hpend
      by_cases hjl : j < st.length
      · exact hsat j (by omega) (by omega) s hj hpend
      · have hlen := hm.length_eq
        rw [List.getElem?_eq_none (by omega)] at hj
        simp at hj
    refine ⟨hS, ?_⟩
    intro f todo
    induction todo with
    | zero =>
      intro p st h
      rw [skipLoopF]
      refine ⟨MarkedFrom.refl st, ?_, NewMarksSat_refl st⟩
      intro j h1 h2
      omega
    | succ todo ihT =>
      intro p st h
      rw [skipLoopF]
      cases hsp : st[p]? with
      | none =>
        refine ⟨MarkedFrom.refl st, ?_, NewMarksSat_refl st⟩
        intro j hj1 hj2 s hj hpend
        have hj' : st[j]? = some s := hj
        have hple : st.length ≤ p := by
          by_contra hlt
          rw [List.getElem?_eq_getElem (by omega)] at hsp
          simp at hsp
        rw [List.getElem?_eq_none (by omega)] at hj'
        simp at hj'
      | some s =>
        by_cases hcond : f ∈ s.dependsOn ∧ s.status = .pending
        · simp only [hcond, and_self, if_true]
          have hm1 : MarkedFrom st (st.set p { s with status := .skipped }) :=
            MarkedFrom.set_mark hsp hcond.2
          have hpc1 := pendingCount_set_mark st p s hsp hcond.2
          obtain ⟨hm2, hfsat1, hmarks1⟩ :=
            hS s.index (st.set p { s with status := .skipped }) (by omega)
          obtain ⟨hm3, hfsat2, hmarks2⟩ := ihT (p + 1)
            (skipDependentsF (fuel + 1) s.index (st.set p { s with status := .skipped }))
            (le_trans hm2.pc_le (by omega))
          have hR1p : (skipDependentsF (fuel + 1) s.index
              (st.set p { s with status := .skipped }))[p]? = some { s with status := .skipped } := by
            refine hm2.nonpending_forward ?_ (by simp)
            have hlt : p < st.length := by
              by_contra hge
              rw [List.getElem?_eq_none (by omega)] at hsp
              simp at hsp
            exact List.getElem?_set_eq hlt
          refine ⟨(hm1.trans hm2).trans hm3, ?_, ?_⟩
          · intro j hj1 hj2 s' hj hpend
            by_cases hjp : j = p
            · subst hjp
              have := hm3.nonpending_forward hR1p (by simp)
              rw [this] at hj
              simp at hj
              rw [← hj] at hpend
              simp at hpend
            · exact hfsat2 j (by omega) (by omega) s' hj hpend
          · intro q t u hRq hstq hupend htskip j s' hRj hspend
            have hR1j : (skipDependentsF (fuel + 1) s.index
                (st.set p { s with status := .skipped }))[j]? = some s' :=
              hm3.pending_backward hRj hspend
            by_cases hqp : q = p
            · subst hqp
              have := hm3.nonpending_forward hR1p (by simp)
              rw [this] at hRq
              simp at hRq
              rw [← hRq]
              exact hfsat1 j s' hR1j hspend
            · rcases hm2 q with hq | ⟨w, hw1, hw2, hw3⟩
              · -- not marked during the recursive call: marked in the tail loop
                rw [List.getElem?_set_ne (fun he => hqp he.symm)] at hq
                rw [hstq] at hq
                exact hmarks2 q t u hRq hq hupend htskip j s' hRj hspend
              · -- marked during the recursive call
                rw [List.getElem?_set_ne (fun he => hqp he.symm), hstq] at hw1
                simp at hw1
                subst hw1
                have hRq' := hm3.nonpending_forward hw3 (by simp)
                rw [hRq'] at hRq
                simp at hRq
                rw [← hRq]
                exact hmarks1 q _ u hw3
                  (by rw [List.getElem?_set_ne (fun he => hqp he.symm)]; exact hstq)
                  hupend (by simp) j s' hR1j hspend
        · simp only [hcond, if_false]
          obtain ⟨hm, hsat, hmarks⟩ := ihT (p + 1) st h
          refine ⟨hm, ?_, hmarks⟩
          intro j hj1 hj2 s' hj hpend
          by_cases hjp : j = p
          · subst hjp
            have hst : st[j]? = some s' := hm.pending_backward hj hpend
            rw [hsp] at hst
            simp at hst
            subst hst
            intro hf
            exact hcond ⟨hf, hpend⟩
          · exact hsat j (by omega) (by omega) s' hj hpend

/-- The closure `skipDependents` marks: steps pending at call time that
depend on the failed index directly or through a chain of pending
dependents. -/
inductive PendReach (base : List PlanStep) (f : Nat) : Nat → Prop
  | direct (s : PlanStep) : s ∈ base → f ∈ s.dependsOn → s.status = .pending →
      PendReach base f s.index
  | chain (s : PlanStep) (m : Nat) : PendReach base f m → s ∈ base →
      m ∈ s.dependsOn → s.status = .pending → PendReach base f s.index

theorem pendReach_pending (base : List PlanStep) (f j : Nat)
    (h : PendReach base f j) : ∃ t ∈ base, t.index = j ∧ t.status = .pending := by
  cases h with
  | direct s hs hf hpend => exact ⟨s, hs, rfl, hpend⟩
  | chain s m hm hs hmem hpend => exact ⟨s, hs, rfl, hpend⟩

theorem getElem?_of_mem {α : Type} {l : List α} {a : α} (h : a ∈ l) :
    ∃ q : Nat, l[q]? = some a := by
  obtain ⟨q, hq, he⟩ := List.mem_iff_getElem.mp h
  exact ⟨q, by rw [List.getElem?_eq_getElem hq, he]⟩

/-- Completeness: every step in the pending-dependent closure of `f`
ends marked `skipped` by `skipDependents`. -/
theorem skipDependentsF_complete (base : List PlanStep) (f : Nat) (fuel : Nat)
    (hfuel : pendingCount base + 1 ≤ fuel)
    (hnodup : (indicesOf base).Nodup) :
    ∀ j, PendReach base f j →
      ∀ (q : Nat) (u : PlanStep), base[q]? = some u → u.index = j →
        (skipDependentsF fuel f base)[q]? = some { u with status := .skipped } := by
  obtain ⟨hmk, hfsat, hmarks⟩ := (skip_spec fuel).1 f base hfuel
  intro j hreach
  induction hreach with
  | direct s hs hf hpend =>
    intro q u hqu hui
    have hus : u = s := index_inj base hnodup u s (mem_of_getElem? hqu) hs hui
    subst hus
    rcases hmk q with hq | ⟨w, hw1, hw2, hw3⟩
    · rw [hqu] at hq
      exact absurd hf (hfsat q u hq hpend)
    · rw [hqu] at hw1
      simp at hw1
      subst hw1
      exact hw3
  | chain s m hm' hs hmem hpend ih =>
    intro q u hqu hui
    have hus : u = s := index_inj base hnodup u s (mem_of_getElem? hqu) hs hui
    subst hus
    obtain ⟨t, ht, hti, htpend⟩ := pendReach_pending base f m hm'
    obtain ⟨qm, hqm⟩ := getElem?_of_mem ht
    have hmarked := ih qm t hqm hti
    rcases hmk q with hq | ⟨w, hw1, hw2, hw3⟩
    · rw [hqu] at hq
      have hnot := hmarks qm { t with status := .skipped } t hmarked hqm htpend
        (by simp) q u hq hpend
      simp at hnot
      rw [hti] at hnot
      exact absurd hmem hnot
    · rw [hqu] at hw1
      simp at hw1
      subst hw1
      exact hw3

/-- A rank certificate is transitive over `DependsOnTrans`. -/
theorem rank_lt_of_dependsOnTrans (steps : List PlanStep) (rank : Nat → Nat)
    (hrank : ∀ s ∈ steps, ∀ d ∈ s.dependsOn, rank d < rank s.index)
    {i j : Nat} (h : DependsOnTrans steps i j) : rank j < rank i := by
  induction h with
  | direct s d hs hd => exact hrank s hs d hd
  | tail s d j hs hd hrec ih => exact lt_trans ih (hrank s hs d hd)

theorem pendingCount_le_length (st : List PlanStep) : pendingCount st ≤ st.length :=
  List.length_filter_le _ _

theorem setStatus_getElem? (st : List PlanStep) (i : Nat) (x : StepStatus) (q : Nat) :
    (setStatus st i x)[q]? =
      (st[q]?).map (fun s => if s.index = i then { s with status := x } else s) :=
  List.getElem?_map _ _ _

theorem setStatus_length (st : List PlanStep) (i : Nat) (x : StepStatus) :
    (setStatus st i x).length = st.length :=
  List.length_map _ _

/-- A transitive dependency starting inside a dependency-closed index
set ends inside it. -/
theorem dependsOnTrans_closed (steps : List PlanStep) (C : List Nat)
    (hclosed : ∀ i ∈ C, ∀ s ∈ steps, s.index = i → ∀ d ∈ s.dependsOn, d ∈ C)
    {i j : Nat} (h : DependsOnTrans steps i j) (hi : i ∈ C) : j ∈ C := by
  induction h with
  | direct s d hs hd => exact hclosed s.index hi s hs rfl d hd
  | tail s d j hs hd hrec ih => exact ih (hclosed s.index hi s hs rfl d hd)

/-- The index set of any `take`-prefix of the topological order is
dependency-closed. -/
theorem take_deps_closed (steps : List PlanStep) (hWF : WFSteps steps) (k : Nat) :
    ∀ i ∈ ((topologicalSort steps).take k).map (fun t => t.index),
      ∀ s ∈ steps, s.index = i → ∀ d ∈ s.dependsOn,
        d ∈ ((topologicalSort steps).take k).map (fun t => t.index) := by
  have F := topologicalSort_final steps hWF
  intro i hi s hs hsi d hd
  rw [List.mem_map] at hi
  obtain ⟨t, ht, hti⟩ := hi
  obtain ⟨pre, post, hsplit⟩ := List.append_of_mem ht
  have hts : t = s := index_inj steps hWF.1 t s
    (F.mem t (by
      have : t ∈ topologicalSort steps := by
        rw [← List.take_append_drop k (topologicalSort steps), hsplit]
        simp
      exact this))
    hs (by rw [hti, hsi])
  have hsorted : topologicalSort steps = pre ++ t :: (post ++ (topologicalSort steps).drop k) := by
    conv_lhs => rw [← List.take_append_drop k (topologicalSort steps)]
    rw [hsplit]
    simp
  have hdeps := F.depsBefore pre (post ++ (topologicalSort steps).drop k) t hsorted d
    (by rw [hts]; exact hd)
  rw [List.mem_map] at hdeps
  obtain ⟨w, hw, hwi⟩ := hdeps
  have : w ∈ (topologicalSort steps).take k := by
    rw [hsplit]
    simp [hw]
  rw [List.mem_map]
  exact ⟨w, this, hwi⟩

/-- Converting a transitive dependency on the failed step into the
pending-chain closure `skipDependents` operates on, in the state the
scheduler has when the failure occurs (`C` done, `S` failed, rest
pending). -/
theorem pendReach_of_dependsOnTrans
    (steps state₂ : List PlanStep) (S : PlanStep) (hS : S ∈ steps)
    (hWF : WFSteps steps)
    (rank : Nat → Nat) (hrank : ∀ s ∈ steps, ∀ d ∈ s.dependsOn, rank d < rank s.index)
    (C : List Nat)
    (hclosed : ∀ i ∈ C, ∀ s ∈ steps, s.index = i → ∀ d ∈ s.dependsOn, d ∈ C)
    (hSC : S.index ∉ C)
    (hpend : ∀ s ∈ steps, s.status = .pending)
    (hlen : state₂.length = steps.length)
    (hstate : ∀ (q : Nat) (u : PlanStep), steps[q]? = some u →
      state₂[q]? = some (if u.index = S.index then { u with status := .failed }
        else if u.index ∈ C then { u with status := .done } else u)) :
    ∀ i, DependsOnTrans steps i S.index → PendReach state₂ S.index i := by
  have hinv : ∀ (q : Nat) (t : PlanStep), state₂[q]? = some t → t.status = .pending →
      t ∈ steps ∧ t.index ≠ S.index ∧ t.index ∉ C := by
    intro q t hqt htpend
    have hql : q < steps.length := by
      by_contra hge
      rw [List.getElem?_eq_none (by omega)] at hqt
      simp at hqt
    obtain ⟨u, hqu⟩ : ∃ u, steps[q]? = some u := by
      rw [List.getElem?_eq_getElem hql]
      exact ⟨_, rfl⟩
    have := hstate q u hqu
    rw [hqt] at this
    simp at this
    by_cases h1 : u.index = S.index
    · rw [if_pos h1] at this
      rw [this] at htpend
      simp at htpend
    · rw [if_neg h1] at this
      by_cases h2 : u.index ∈ C
      · rw [if_pos h2] at this
        rw [this] at htpend
        simp at htpend
      · rw [if_neg h2] at this
        subst this
        exact ⟨mem_of_getElem? hqu, h1, h2⟩
  have hentry : ∀ s ∈ steps, s.index ≠ S.index → s.index ∉ C → s ∈ state₂ := by
    intro s hs h1 h2
    obtain ⟨q, hq⟩ := getElem?_of_mem hs
    have := hstate q s hq
    rw [if_neg h1, if_neg h2] at this
    exact mem_of_getElem? this
  have H : ∀ (i j : Nat), DependsOnTrans steps i j → j = S.index →
      PendReach state₂ S.index i := by
    intro i j h
    induction h with
    | direct s d hs hd =>
      intro he
      subst he
      have h1 : s.index ≠ S.index := by
        intro he'
        have := hrank s hs S.index hd
        rw [he'] at this
        omega
      have h2 : s.index ∉ C := by
        intro hc
        exact hSC (hclosed s.index hc s hs rfl S.index hd)
      exact PendReach.direct s (hentry s hs h1 h2) hd (hpend s hs)
    | tail s d j hs hd hrec ih =>
      intro he
      subst he
      have hreach : PendReach state₂ S.index d := ih rfl
      have h1 : s.index ≠ S.index := by
        intro he'
        have := rank_lt_of_dependsOnTrans steps rank hrank
          (DependsOnTrans.tail s d S.index hs hd hrec)
        rw [he'] at this
        omega
      have h2 : s.index ∉ C := by
        intro hc
        obtain ⟨t, ht, hti, htpend⟩ := pendReach_pending state₂ S.index d hreach
        obtain ⟨q, hq⟩ := getElem?_of_mem ht
        obtain ⟨-, -, htC⟩ := hinv q t hq htpend
        rw [hti] at htC
        exact htC (hclosed s.index hc s hs rfl d hd)
      exact PendReach.chain s d hreach (hentry s hs h1 h2) hd (hpend s hs)
  intro i h
  exact H i S.index h rfl

theorem setStatus_setStatus (st : List PlanStep) (i : Nat) (x y : StepStatus) :
    setStatus (setStatus st i x) i y = setStatus st i y := by
  unfold setStatus
  rw [List.map_map]
  apply List.map_congr_left
  intro s _
  by_cases h : s.index = i <;> simp [h]

theorem execLoop_cons_fail_fail (firstA retryA : Nat → AttemptOutcome) (i : Nat)
    (idxs : List Nat) (state : List PlanStep) (results : List StepResult)
    (e1 e2 : String) (h1 : firstA i = .failure e1) (h2 : retryA i = .failure e2) :
    execLoop firstA retryA false (i :: idxs) state results
      = (skipDependentsF ((setStatus state i .failed).length + 1) i
           (setStatus state i .failed),
         results ++ [{ stepIndex := i, status := .failure, error := some e1 }]) := by
  rw [execLoop]
  simp [h1, h2, firstResultOf, retryResultOf, setStatus_setStatus]

theorem execLoop_cons_success (firstA retryA : Nat → AttemptOutcome) (i : Nat)
    (idxs : List Nat) (state : List PlanStep) (results : List StepResult)
    (ids : List String) (h1 : firstA i = .success ids) :
    execLoop firstA retryA false (i :: idxs) state results
      = execLoop firstA retryA false idxs (setStatus state i .done)
          (results ++ [{ stepIndex := i, status := .success, nodeIds := some ids }]) := by
  rw [execLoop]
  simp [h1, firstResultOf, setStatus_setStatus]

theorem execLoop_cons_fail_retry (firstA retryA : Nat → AttemptOutcome) (i : Nat)
    (idxs : List Nat) (state : List PlanStep) (results : List StepResult)
    (e : String) (ids : List String)
    (h1 : firstA i = .failure e) (h2 : retryA i = .success ids) :
    execLoop firstA retryA false (i :: idxs) state results
      = execLoop firstA retryA false idxs (setStatus state i .done)
          (results ++ [{ stepIndex := i, status := .success }]) := by
  rw [execLoop]
  have hset : ∀ (r r' : StepResult) (l : List StepResult),
      (l ++ [r]).set ((l ++ [r]).length - 1) r' = l ++ [r'] := by
    intro r r' l
    have hl : (l ++ [r]).length - 1 = l.length := by simp
    rw [hl, List.set_append_right _ _ (Nat.le_refl _)]
    simp
  simp [h1, h2, firstResultOf, retryResultOf, setStatus_setStatus, hset]

/-- Running `executePlan`'s loop from position `k` of the topological
order, when exactly one step `S` (still ahead) fails both attempts:
the loop records successes until `S`, ends the result list with `S`'s
first-attempt failure, marks `S` failed, marks every transitive
dependent of `S` skipped, and stops. -/
theorem execLoop_stops
    (steps : List PlanStep) (hWF : WFSteps steps)
    (rank : Nat → Nat) (hrank : ∀ s ∈ steps, ∀ d ∈ s.dependsOn, rank d < rank s.index)
    (hpend : ∀ s ∈ steps, s.status = .pending)
    (firstA retryA : Nat → AttemptOutcome)
    (S : PlanStep) (hS : S ∈ steps) (e1 e2 : String)
    (hfail1 : firstA S.index = .failure e1) (hfail2 : retryA S.index = .failure e2)
    (honly : ∀ T ∈ steps, T.index ≠ S.index →
      (∃ ids, firstA T.index = .success ids) ∨ (∃ ids, retryA T.index = .success ids)) :
    ∀ (rem : List PlanStep) (k : Nat), rem = (topologicalSort steps).drop k →
    ∀ (state : List PlanStep) (results : List StepResult),
      state.length = steps.length →
      (∀ (q : Nat) (u : PlanStep), steps[q]? = some u → state[q]? =
        some (if u.index ∈ ((topologicalSort steps).take k).map (fun t => t.index)
              then { u with status := .done } else u)) →
      S.index ∈ rem.map (fun t => t.index) →
      (∀ r ∈ results, r.status = .success) →
      (∃ pre : List StepResult,
        (∀ r ∈ pre, r.status = .success) ∧
        (execLoop firstA retryA false (rem.map (fun t => t.index)) state results).2
          = pre ++ [{ stepIndex := S.index, status := .failure, error := some e1 }]) ∧
      (∀ (q : Nat) (u : PlanStep), steps[q]? = some u → u.index = S.index →
        (execLoop firstA retryA false (rem.map (fun t => t.index)) state results).1[q]?
          = some { u with status := .failed }) ∧
      (∀ (q : Nat) (u : PlanStep), steps[q]? = some u →
        DependsOnTrans steps u.index S.index →
        (execLoop firstA retryA false (rem.map (fun t => t.index)) state results).1[q]?
          = some { u with status := .skipped }) := by
  have F := topologicalSort_final steps hWF
  intro rem
  induction rem with
  | nil =>
    intro k hk state results hlen hstate hmem hres
    simp at hmem
  | cons s' rem' ih =>
    intro k hk state results hlen hstate hmem hres
    have hklt : k < (topologicalSort steps).length := by
      by_contra hge
      rw [List.drop_eq_nil_of_le (by omega)] at hk
      simp at hk
    have hdropk := List.drop_eq_getElem_cons hklt
    rw [← hk] at hdropk
    have hs'k : s' = (topologicalSort steps)[k] := by
      injection hdropk with h1 h2
    have hrem' : rem' = (topologicalSort steps).drop (k + 1) := by
      injection hdropk with h1 h2
    have hs'sorted : s' ∈ topologicalSort steps := by
      rw [hs'k]
      exact List.getElem_mem hklt
    have hs'steps : s' ∈ steps := F.mem s' hs'sorted
    have htake : (topologicalSort steps).take (k + 1) = (topologicalSort steps).take k ++ [s'] := by
      rw [List.take_succ, List.getElem?_eq_getElem hklt]
      simp [hs'k]
    have hmapcons : (s' :: rem').map (fun t => t.index)
        = s'.index :: rem'.map (fun t => t.index) := rfl
    by_cases hSidx : s'.index = S.index
    · -- the doubly failing step
      have hs'S : s' = S := index_inj steps hWF.1 s' S hs'steps hS hSidx
      subst hs'S
      have hSnotin : s'.index ∉ ((topologicalSort steps).take k).map (fun t => t.index) := by
        intro hin
        have hsplit : (topologicalSort steps).map (fun t => t.index)
            = ((topologicalSort steps).take k).map (fun t => t.index)
              ++ ((topologicalSort steps).drop k).map (fun t => t.index) := by
          rw [← List.map_append, List.take_append_drop]
        have hnd := F.nodup
        rw [hsplit, List.nodup_append] at hnd
        refine hnd.2.2 hin ?_
        rw [← hk]
        simp
      rw [hmapcons, execLoop_cons_fail_fail firstA retryA s'.index _ state results e1 e2
        hfail1 hfail2]
      have hst2len : (setStatus state s'.index .failed).length = steps.length := by
        rw [setStatus_length, hlen]
      have hstate2 : ∀ (q : Nat) (u : PlanStep), steps[q]? = some u →
          (setStatus state s'.index .failed)[q]? =
            some (if u.index = s'.index then { u with status := .failed }
              else if u.index ∈ ((topologicalSort steps).take k).map (fun t => t.index)
              then { u with status := .done } else u) := by
        intro q u hq
        rw [setStatus_getElem?, hstate q u hq]
        simp only [Option.map_some']
        by_cases h1 : u.index = s'.index
        · have h2 : u.index ∉ ((topologicalSort steps).take k).map (fun t => t.index) := by
            rw [h1]
            exact hSnotin
          rw [if_neg h2, if_pos h1]
        · by_cases h2 : u.index ∈ ((topologicalSort steps).take k).map (fun t => t.index)
          · rw [if_pos h2,
              if_neg (show ¬({ u with status := StepStatus.done } : PlanStep).index = s'.index from h1)]
          · rw [if_neg h2, if_neg h1]
      have hfuel : pendingCount (setStatus state s'.index .failed) + 1
          ≤ (setStatus state s'.index .failed).length + 1 := by
        have := pendingCount_le_length (setStatus state s'.index .failed)
        omega
      have hnodupSt2 : (indicesOf (setStatus state s'.index .failed)).Nodup := by
        have heq : indicesOf (setStatus state s'.index .failed) = indicesOf steps := by
          apply List.ext_getElem?
          intro n
          rw [indicesOf, indicesOf, List.getElem?_map, List.getElem?_map]
          by_cases hn : n < steps.length
          · obtain ⟨u, hu⟩ : ∃ u, steps[n]? = some u :=
              ⟨_, List.getElem?_eq_getElem hn⟩
            rw [hu, hstate2 n u hu]
            simp only [Option.map_some']
            by_cases h1 : u.index = s'.index
            · rw [if_pos h1]
            · rw [if_neg h1]
              by_cases h2 : u.index ∈ ((topologicalSort steps).take k).map (fun t => t.index)
              · rw [if_pos h2]
              · rw [if_neg h2]
          · have hn1 : steps.length ≤ n := by omega
            have hn2 : (setStatus state s'.index .failed).length ≤ n := by
              rw [hst2len]
              omega
            rw [List.getElem?_eq_none hn1, List.getElem?_eq_none hn2]
        rw [heq]
        exact hWF.1
      obtain ⟨hmk, -, -⟩ :=
        (skip_spec ((setStatus state s'.index .failed).length + 1)).1 s'.index
          (setStatus state s'.index .failed) hfuel
      refine ⟨⟨results, hres, rfl⟩, ?_, ?_⟩
      · intro q u hq hui
        have h2 := hstate2 q u hq
        rw [if_pos hui] at h2
        exact hmk.nonpending_forward h2 (by simp)
      · intro q u hq hdep
        have hune : u.index ≠ s'.index := by
          intro he
          have := rank_lt_of_dependsOnTrans steps rank hrank hdep
          rw [he] at this
          omega
        have hunotk : u.index ∉ ((topologicalSort steps).take k).map (fun t => t.index) := by
          intro hin
          exact hSnotin (dependsOnTrans_closed steps _ (take_deps_closed steps hWF k)
            hdep hin)
        have h2 := hstate2 q u hq
        rw [if_neg hune, if_neg hunotk] at h2
        have hreach := pendReach_of_dependsOnTrans steps (setStatus state s'.index .failed)
          s' hS hWF rank hrank
          (((topologicalSort steps).take k).map (fun t => t.index))
          (take_deps_closed steps hWF k) hSnotin hpend hst2len hstate2 u.index hdep
        exact skipDependentsF_complete (setStatus state s'.index .failed) s'.index
          ((setStatus state s'.index .failed).length + 1) hfuel hnodupSt2
          u.index hreach q u h2 rfl
    · -- a step that eventually succeeds
      have hSrem' : S.index ∈ rem'.map (fun t => t.index) := by
        rw [hmapcons] at hmem
        rcases List.mem_cons.mp hmem with he | h
        · exact absurd he.symm hSidx
        · exact h
      have hstateNext : ∀ (q : Nat) (u : PlanStep), steps[q]? = some u →
          (setStatus state s'.index .done)[q]? =
            some (if u.index ∈ ((topologicalSort steps).take (k + 1)).map (fun t => t.index)
              then { u with status := .done } else u) := by
        intro q u hq
        rw [setStatus_getElem?, hstate q u hq]
        simp only [Option.map_some']
        rw [htake, List.map_append]
        simp only [List.map_cons, List.map_nil]
        have hmemsplit : ∀ z : Nat,
            (z ∈ ((topologicalSort steps).take k).map (fun t => t.index) ++ [s'.index])
              ↔ (z ∈ ((topologicalSort steps).take k).map (fun t => t.index) ∨ z = s'.index) := by
          intro z
          simp
        by_cases h1 : u.index = s'.index
        · by_cases h2 : u.index ∈ ((topologicalSort steps).take k).map (fun t => t.index)
          · rw [if_pos h2,
              if_pos (show ({ u with status := StepStatus.done } : PlanStep).index = s'.index from h1),
              if_pos ((hmemsplit u.index).mpr (Or.inl h2))]
          · rw [if_neg h2, if_pos h1, if_pos ((hmemsplit u.index).mpr (Or.inr h1))]
        · by_cases h2 : u.index ∈ ((topologicalSort steps).take k).map (fun t => t.index)
          · rw [if_pos h2,
              if_neg (show ¬({ u with status := StepStatus.done } : PlanStep).index = s'.index from h1),
              if_pos ((hmemsplit u.index).mpr (Or.inl h2))]
          · rw [if_neg h2, if_neg h1,
              if_neg (by
                rw [hmemsplit u.index]
                push_neg
                exact ⟨h2, h1⟩)]
      have hlenNext : (setStatus state s'.index .done).length = steps.length := by
        rw [setStatus_length, hlen]
      cases hfa : firstA s'.index with
      | success ids =>
        rw [hmapcons, execLoop_cons_success firstA retryA s'.index _ state results ids hfa]
        refine ih (k + 1) hrem' (setStatus state s'.index .done)
          (results ++ [{ stepIndex := s'.index, status := .success, nodeIds := some ids }])
          hlenNext hstateNext hSrem' ?_
        intro r hr
        rcases List.mem_append.mp hr with h | h
        · exact hres r h
        · simp at h
          rw [h]
      | failure e =>
        have hra : ∃ ids, retryA s'.index = .success ids := by
          rcases honly s' hs'steps hSidx with ⟨ids, h⟩ | h
          · rw [hfa] at h
            cases h
          · exact h
        obtain ⟨ids, hra⟩ := hra
        rw [hmapcons, execLoop_cons_fail_retry firstA retryA s'.index _ state results e ids
          hfa hra]
        refine ih (k + 1) hrem' (setStatus state s'.index .done)
          (results ++ [{ stepIndex := s'.index, status := .success }])
          hlenNext hstateNext hSrem' ?_
        intro r hr
        rcases List.mem_append.mp hr with h | h
        · exact hres r h
        · simp at h
          rw [h]

/-- C3: in a plan execution where step `S` fails its first attempt and
its single retry (and no other step does), `S` ends with status
`failed`; every step transitively depending on `S` — directly or
through a chain of pending dependents — ends with status `skipped`
(and `skipped ≠ done`, so no such step is marked done); and the
scheduler stops: the returned results are the successes recorded before
`S` followed only by `S`'s failure result. -/
theorem executePlan_failure_propagation
    (plan : Plan) (firstA retryA : Nat → AttemptOutcome)
    (hWF : WFSteps plan.steps)
    (hacyc : ∃ rank : Nat → Nat, ∀ s ∈ plan.steps, ∀ d ∈ s.dependsOn, rank d < rank s.index)
    (hpend : ∀ s ∈ plan.steps, s.status = .pending)
    (S : PlanStep) (hS : S ∈ plan.steps) (e1 e2 : String)
    (hfail1 : firstA S.index = .failure e1) (hfail2 : retryA S.index = .failure e2)
    (honly : ∀ T ∈ plan.steps, T.index ≠ S.index →
      (∃ ids, firstA T.index = .success ids) ∨ (∃ ids, retryA T.index = .success ids)) :
    (∀ q : Nat, plan.steps[q]? = some S →
      (executePlan firstA retryA false plan).1[q]? = some { S with status := .failed }) ∧
    (∀ (q : Nat) (u : PlanStep), plan.steps[q]? = some u →
      DependsOnTrans plan.steps u.index S.index →
      (executePlan firstA retryA false plan).1[q]? = some { u with status := .skipped } ∧
      ({ u with status := .skipped } : PlanStep) ≠ { u with status := .done }) ∧
    (∃ pre : List StepResult, (∀ r ∈ pre, r.status = .success) ∧
      (executePlan firstA retryA false plan).2
        = pre ++ [{ stepIndex := S.index, status := .failure, error := some e1 }]) := by
  obtain ⟨rank, hrank⟩ := hacyc
  have F := topologicalSort_final plan.steps hWF
  have hmem : S.index ∈ ((topologicalSort plan.steps).drop 0).map (fun t => t.index) := by
    rw [List.drop_zero]
    exact kahnFinal_complete plan.steps (topologicalSort plan.steps) hWF F rank hrank S hS
  have hstate0 : ∀ (q : Nat) (u : PlanStep), plan.steps[q]? = some u →
      plan.steps[q]? = some (if u.index ∈
        ((topologicalSort plan.steps).take 0).map (fun t => t.index)
        then { u with status := .done } else u) := by
    intro q u hq
    simpa using hq
  have H := execLoop_stops plan.steps hWF rank hrank hpend firstA retryA S hS e1 e2
    hfail1 hfail2 honly (topologicalSort plan.steps) 0 (List.drop_zero _).symm
    plan.steps [] rfl hstate0 (by rw [← List.drop_zero (topologicalSort plan.steps)]; exact hmem)
    (by intro r hr; simp at hr)
  obtain ⟨⟨pre, hpre, hres⟩, hfailed, hskipped⟩ := H
  rw [executePlan]
  refine ⟨?_, ?_, pre, hpre, hres⟩
  · intro q hq
    exact hfailed q S hq rfl
  · intro q u hq hdep
    refine ⟨hskipped q u hq hdep, ?_⟩
    intro he
    have := congrArg PlanStep.status he
    simp at this
  
/-- A linear four-step plan whose step 1 double-fails: 0 ← 1 ← 2 ← 3. -/
def failingPlan : Plan :=
  { id := "p", title := "", description := "", constraints := [],
    steps := [mkStep 0 [], mkStep 1 [0], mkStep 2 [1], mkStep 3 [2]],
    estimatedTokens := 0, estimatedCostUsd := 0 }

/-- Attempt oracle that fails step 1 and succeeds everywhere else. -/
def demoFirstA : Nat → AttemptOutcome :=
  fun i => if i = 1 then .failure "boom" else .success []

/-- Retry oracle that fails step 1 again and succeeds everywhere else. -/
def demoRetryA : Nat → AttemptOutcome :=
  fun i => if i = 1 then .failure "boom2" else .success []

/-- Witness for C3 at the linear failing plan. -/
theorem executePlan_failure_propagation_witness :
    (∀ q : Nat, failingPlan.steps[q]? = some (mkStep 1 [0]) →
      (executePlan demoFirstA demoRetryA false failingPlan).1[q]?
        = some { mkStep 1 [0] with status := .failed }) ∧
    (∀ (q : Nat) (u : PlanStep), failingPlan.steps[q]? = some u →
      DependsOnTrans failingPlan.steps u.index (mkStep 1 [0]).index →
      (executePlan demoFirstA demoRetryA false failingPlan).1[q]?
        = some { u with status := .skipped } ∧
      ({ u with status := .skipped } : PlanStep) ≠ { u with status := .done }) ∧
    (∃ pre : List StepResult, (∀ r ∈ pre, r.status = .success) ∧
      (executePlan demoFirstA demoRetryA false failingPlan).2
        = pre ++
          [{ stepIndex := (mkStep 1 [0]).index, status := .failure, error := some "boom" }]) :=
  executePlan_failure_propagation failingPlan demoFirstA demoRetryA
    (by decide) ⟨fun i => i, by decide⟩ (by decide)
    (mkStep 1 [0]) (by decide) "boom" "boom2" rfl rfl
    (by
      intro T hT hne
      left
      refine ⟨[], ?_⟩
      unfold demoFirstA
      have hne1 : T.index ≠ 1 := hne
      rw [if_neg hne1])

/-! ## JSON runtime values and the tool executor (tool-executor.ts)

`JsonVal` models a JavaScript runtime value as received from `JSON.parse`
of an LLM tool call; `jsTypeof` models the `typeof` operator (`null` and
arrays are typed "object") and `JsonVal.isArr` models `Array.isArray`. -/

inductive JsonVal where
  | null
  | bool (b : Bool)
  | num (q : ℚ)
  | str (s : String)
  | arr (items : List JsonVal)
  | obj (fields : List (String × JsonVal))

def jsTypeof : JsonVal → String
  | .null => "object"
  | .bool _ => "boolean"
  | .num _ => "number"
  | .str _ => "string"
  | .arr _ => "object"
  | .obj _ => "object"

def JsonVal.isNull : JsonVal → Bool
  | .null => true
  | _ => false

def JsonVal.isArr : JsonVal → Bool
  | .arr _ => true
  | _ => false

/-- One property entry of a tool schema: the optional declared `type`. -/
structure PropSchema where
  type : Option String

/-- The parts of a JSON schema that `validateToolInput` reads:
`schema["required"] ?? []` and `schema["properties"] ?? {}`. -/
structure ToolSchema where
  required : List String
  properties : JsMap String PropSchema

/-- The type-check errors contributed by one input entry, mirroring the
`else if` chain of `validateToolInput` (the four guards are mutually
exclusive on the declared type, so the chain is a case split). -/
def typeError (key : String) (expected : Option String) (value : JsonVal) : List String :=
  if expected = some "string" then
    if jsTypeof value = "string" then [] else ["Field \x27" ++ key ++ "\x27 must be a string"]
  else if expected = some "number" then
    if jsTypeof value = "number" then [] else ["Field \x27" ++ key ++ "\x27 must be a number"]
  else if expected = some "array" then
    if value.isArr then [] else ["Field \x27" ++ key ++ "\x27 must be an array"]
  else if expected = some "object" then
    if jsTypeof value = "object" ∧ value.isNull = false then []
    else ["Field \x27" ++ key ++ "\x27 must be an object"]
  else []

/-- The errors contributed by one `[key, value]` entry of the input:
nothing when the key has no property schema (`if (!propSchema) continue`). -/
def entryErrors (properties : JsMap String PropSchema) (kv : String × JsonVal) : List String :=
  match JsMap.get properties kv.1 with
  | none => []
  | some propSchema => typeError kv.1 propSchema.type kv.2

structure Validation where
  valid : Bool
  errors : List String

/-- `validateToolInput(input, schema)`: required fields checked first in
declaration order, then each input entry in insertion order. -/
def validateToolInput (input : JsMap String JsonVal) (schema : ToolSchema) : Validation :=
  let errors :=
    (schema.required.filter (fun f => !JsMap.hasKey input f)).map
      (fun f => "Missing required field: " ++ f)
    ++ input.flatMap (entryErrors schema.properties)
  { valid := errors.isEmpty, errors := errors }

/-- A registered tool handler: its schema and its executor, which either
returns a value or throws (modelled by `Except`, the thrown fault already
stringified). -/
structure ToolHandler where
  schema : ToolSchema
  run : JsMap String JsonVal → Except String JsonVal

structure ToolCall where
  id : String
  name : String
  input : JsMap String JsonVal

structure ToolResult where
  success : Bool
  data : Option JsonVal := none
  error : Option String := none

/-- `ToolExecutor.execute(toolCall)`: unknown tool, validation failure,
thrown fault, or success, as a total function (it never throws). -/
def ToolExecutor.execute (handlers : JsMap String ToolHandler) (toolCall : ToolCall) :
    ToolResult :=
  match JsMap.get handlers toolCall.name with
  | none => { success := false, error := some ("Unknown tool: " ++ toolCall.name) }
  | some handler =>
    let validation := validateToolInput toolCall.input handler.schema
    if validation.valid then
      match handler.run toolCall.input with
      | .ok result => { success := true, data := some result }
      | .error e => { success := false, error := some e }
    else
      { success := false, error := some (String.intercalate ", " validation.errors) }

/-- The conformance of one runtime value against a declared schema type:
the four checked types constrain the runtime kind (`array` also passes
the `object` check, since `typeof [] === "object"`), any other or absent
declared type constrains nothing. -/
def TypeOk (expected : Option String) (v : JsonVal) : Prop :=
  (expected = some "string" → ∃ s, v = .str s) ∧
  (expected = some "number" → ∃ q, v = .num q) ∧
  (expected = some "array" → ∃ l, v = .arr l) ∧
  (expected = some "object" → (∃ l, v = .arr l) ∨ (∃ l, v = .obj l))

theorem typeError_eq_nil_iff (key : String) (expected : Option String) (v : JsonVal) :
    typeError key expected v = [] ↔ TypeOk expected v := by
  by_cases h1 : expected = some "string"
  · subst h1; cases v <;> simp [typeError, TypeOk, jsTypeof]
  · by_cases h2 : expected = some "number"
    · subst h2; cases v <;> simp [typeError, TypeOk, jsTypeof]
    · by_cases h3 : expected = some "array"
      · subst h3; cases v <;> simp [typeError, TypeOk, jsTypeof, JsonVal.isArr]
      · by_cases h4 : expected = some "object"
        · subst h4
          cases v <;>
            simp [typeError, TypeOk, jsTypeof, JsonVal.isArr, JsonVal.isNull]
        · simp [typeError, TypeOk, h1, h2, h3, h4]

theorem entryErrors_eq_nil_iff (properties : JsMap String PropSchema)
    (kv : String × JsonVal) :
    entryErrors properties kv = []
      ↔ ∀ p, JsMap.get properties kv.1 = some p → TypeOk p.type kv.2 := by
  unfold entryErrors
  cases hg : JsMap.get properties kv.1
  · simp
  · simp [typeError_eq_nil_iff]

theorem validateToolInput_valid_iff (input : JsMap String JsonVal) (schema : ToolSchema) :
    (validateToolInput input schema).valid = true ↔
      ((∀ f ∈ schema.required, JsMap.hasKey input f = true) ∧
       ∀ kv ∈ input, ∀ p, JsMap.get schema.properties kv.1 = some p → TypeOk p.type kv.2) := by
  unfold validateToolInput
  simp [List.isEmpty_iff, List.filter_eq_nil_iff, List.flatMap_eq_nil_iff,
    entryErrors_eq_nil_iff]

/-- C5: `ToolExecutor.execute` is total (the embedding is a plain function;
no failure escapes as an exception) and returns a discriminated result:
the unknown-tool error when no handler is bound to the call name; the
comma-joined non-empty validation error list when the input fails the
schema checks; the stringified thrown fault when the handler throws; and
`success` with the handler value otherwise. Validation passes exactly when
every required field is present and every present field with a declared
`string`/`number`/`array`/`object` type has the matching runtime kind —
fields absent from the schema property set are never constrained. -/
theorem ToolExecutor_execute_contract (handlers : JsMap String ToolHandler) (call : ToolCall) :
    (JsMap.get handlers call.name = none →
      ToolExecutor.execute handlers call
        = { success := false, error := some ("Unknown tool: " ++ call.name) }) ∧
    (∀ h : ToolHandler, JsMap.get handlers call.name = some h →
      ((validateToolInput call.input h.schema).valid = false →
        (validateToolInput call.input h.schema).errors ≠ [] ∧
        ToolExecutor.execute handlers call
          = { success := false,
              error := some (String.intercalate ", "
                (validateToolInput call.input h.schema).errors) }) ∧
      ((validateToolInput call.input h.schema).valid = true →
        (∀ e, h.run call.input = .error e →
          ToolExecutor.execute handlers call = { success := false, error := some e }) ∧
        (∀ v, h.run call.input = .ok v →
          ToolExecutor.execute handlers call = { success := true, data := some v })) ∧
      ((validateToolInput call.input h.schema).valid = true ↔
        (∀ f ∈ h.schema.required, JsMap.hasKey call.input f = true) ∧
        ∀ kv ∈ call.input, ∀ p,
          JsMap.get h.schema.properties kv.1 = some p → TypeOk p.type kv.2)) := by
  constructor
  · intro h0
    unfold ToolExecutor.execute
    rw [h0]
  · intro h hh
    refine ⟨?_, ?_, validateToolInput_valid_iff call.input h.schema⟩
    · intro hv
      refine ⟨?_, ?_⟩
      · intro hnil
        have hval : (validateToolInput call.input h.schema).errors.isEmpty = false := hv
        rw [hnil] at hval
        simp at hval
      · unfold ToolExecutor.execute
        rw [hh]
        simp only [hv]
        simp
    · intro hv
      constructor
      · intro e he
        unfold ToolExecutor.execute
        rw [hh]
        simp only [hv, he]
        simp
      · intro v hvv
        unfold ToolExecutor.execute
        rw [hh]
        simp only [hv, hvv]
        simp

/-- A handler that doubles its numeric `value` field. -/
def doubleHandler : ToolHandler :=
  { schema := { required := ["value"], properties := [("value", { type := some "number" })] },
    run := fun input =>
      match JsMap.get input "value" with
      | some (.num q) => .ok (.num (2 * q))
      | _ => .error "bad input" }

def demoHandlers : JsMap String ToolHandler := [("double", doubleHandler)]

def demoToolCall : ToolCall := { id := "1", name := "double", input := [("value", .num 21)] }

/-- Witness for C5: on the registered `double` tool with a valid numeric
input, `execute` returns the success result carrying the doubled value. -/
theorem ToolExecutor_execute_contract_witness :
    ToolExecutor.execute demoHandlers demoToolCall
      = { success := true, data := some (.num 42) } :=
  (((ToolExecutor_execute_contract demoHandlers demoToolCall).2 doubleHandler rfl).2.1
    rfl).2 (.num 42) (by norm_num [doubleHandler, demoToolCall, JsMap.get])

/-! ## Reasoning stream processor (reasoning-stream-processor.ts)

`processStream` folds over the chunk list, holding `currentThinking` /
`currentMessage` as indices into the trace entry list (the TS code holds
object references into the mutable array). A chunk field is "present"
under JavaScript truthiness: the empty string does not open or extend an
entry; `toolCalls` fires whenever the array is present, even empty. The
tool executor is abstracted as a function that returns a `ToolResult` or
throws (`Except.error`, the fault already stringified). -/

inductive StreamReasoningEntry where
  | thinking (content : String)
  | toolCall (toolName : String) (input : JsMap String JsonVal)
      (output : Option JsonVal) (status : String)
  | message (content : String)

structure ChatChunk where
  thinking : String := ""
  delta : String := ""
  toolCalls : Option (List ToolCall) := none

structure StreamState where
  entries : List StreamReasoningEntry
  currentThinking : Option Nat
  currentMessage : Option Nat

/-- `currentThinking.content += s` on the referenced trace entry. -/
def appendThinkingAt (es : List StreamReasoningEntry) (i : Nat) (s : String) :
    List StreamReasoningEntry :=
  match es[i]? with
  | some (.thinking c) => es.set i (.thinking (c ++ s))
  | _ => es

/-- `currentMessage.content += s` on the referenced trace entry. -/
def appendMessageAt (es : List StreamReasoningEntry) (i : Nat) (s : String) :
    List StreamReasoningEntry :=
  match es[i]? with
  | some (.message c) => es.set i (.message (c ++ s))
  | _ => es

/-- The `if (chunk.thinking)` block: open a thinking entry only when none
is current, then append the fragment to the current entry. -/
def applyThinking (c : ChatChunk) (st : StreamState) : StreamState :=
  if c.thinking = "" then st
  else
    match st.currentThinking with
    | some i => { st with entries := appendThinkingAt st.entries i c.thinking }
    | none =>
      { st with entries := st.entries ++ [.thinking c.thinking],
                currentThinking := some st.entries.length }

/-- The `if (chunk.delta)` block. -/
def applyDelta (c : ChatChunk) (st : StreamState) : StreamState :=
  if c.delta = "" then st
  else
    match st.currentMessage with
    | some i => { st with entries := appendMessageAt st.entries i c.delta }
    | none =>
      { st with entries := st.entries ++ [.message c.delta],
                currentMessage := some st.entries.length }

/-- One executed tool call as it ends up in the trace: `output` is the
result data (even on a failed result) or the stringified thrown fault. -/
def runToolCall (exec : ToolCall → Except String ToolResult) (call : ToolCall) :
    StreamReasoningEntry :=
  match exec call with
  | .ok result =>
    .toolCall call.name call.input result.data (if result.success then "success" else "error")
  | .error e => .toolCall call.name call.input (some (.str e)) "error"

/-- The `if (chunk.toolCalls)` block: append one executed entry per call. -/
def applyToolCalls (exec : ToolCall → Except String ToolResult) (c : ChatChunk)
    (st : StreamState) : StreamState :=
  match c.toolCalls with
  | none => st
  | some calls => { st with entries := st.entries ++ calls.map (runToolCall exec) }

def processChunk (exec : ToolCall → Except String ToolResult) (st : StreamState)
    (c : ChatChunk) : StreamState :=
  applyToolCalls exec c (applyDelta c (applyThinking c st))

/-- `processStream`: fold the chunk stream from the empty trace with no
open accumulators. -/
def processStream (exec : ToolCall → Except String ToolResult)
    (stream : List ChatChunk) : StreamState :=
  stream.foldl (processChunk exec)
    { entries := [], currentThinking := none, currentMessage := none }

def isThinkE : StreamReasoningEntry → Bool
  | .thinking _ => true
  | _ => false

def isMsgE : StreamReasoningEntry → Bool
  | .message _ => true
  | _ => false

/-- The concatenation of all fragments of one kind in stream order. -/
def streamConcat (f : ChatChunk → String) (stream : List ChatChunk) : String :=
  stream.foldl (fun a c => a ++ f c) ""

/-- Single-accumulator invariant for one entry kind: either no entry of
kind `P` exists in the trace and nothing has accumulated, or the current
index points at the unique entry of kind `P`, which holds everything
accumulated so far. -/
def AccInv (P : StreamReasoningEntry → Bool) (mk : String → StreamReasoningEntry)
    (es : List StreamReasoningEntry) : Option Nat → String → Prop
  | none, acc => acc = "" ∧ ∀ e ∈ es, P e = false
  | some i, acc => es[i]? = some (mk acc) ∧
      ∀ (j : Nat) (e : StreamReasoningEntry), j ≠ i → es[j]? = some e → P e = false

theorem accInv_append {P mk es cur acc} (h : AccInv P mk es cur acc)
    (L : List StreamReasoningEntry) (hL : ∀ e ∈ L, P e = false) :
    AccInv P mk (es ++ L) cur acc := by
  cases cur with
  | none =>
    obtain ⟨h1, h2⟩ := h
    exact ⟨h1, fun e he => (List.mem_append.mp he).elim (h2 e) (hL e)⟩
  | some i =>
    obtain ⟨h1, h2⟩ := h
    have hi : i < es.length := by
      by_contra hge
      rw [List.getElem?_eq_none (by omega)] at h1
      exact absurd h1 (by simp)
    refine ⟨by rw [List.getElem?_append_left hi]; exact h1, ?_⟩
    intro j e hj he
    by_cases hjlt : j < es.length
    · rw [List.getElem?_append_left hjlt] at he
      exact h2 j e hj he
    · rw [List.getElem?_append_right (by omega)] at he
      exact hL e (mem_of_getElem? he)

theorem accInv_open {P mk es acc} (h : AccInv P mk es none acc) (s : String) :
    AccInv P mk (es ++ [mk s]) (some es.length) s := by
  obtain ⟨-, h2⟩ := h
  refine ⟨by rw [List.getElem?_append_right (le_refl _)]; simp, ?_⟩
  intro j e hj he
  by_cases hjlt : j < es.length
  · rw [List.getElem?_append_left hjlt] at he
    exact h2 e (mem_of_getElem? he)
  · rw [List.getElem?_append_right (by omega)] at he
    have : j - es.length ≠ 0 := by omega
    rw [List.getElem?_eq_none (by simp; omega)] at he
    exact absurd he (by simp)

theorem accInv_grow {P mk es i acc} (h : AccInv P mk es (some i) acc) (s : String) :
    AccInv P mk (es.set i (mk (acc ++ s))) (some i) (acc ++ s) := by
  obtain ⟨h1, h2⟩ := h
  have hi : i < es.length := by
    by_contra hge
    rw [List.getElem?_eq_none (by omega)] at h1
    exact absurd h1 (by simp)
  refine ⟨by rw [List.getElem?_set_self hi], ?_⟩
  intro j e hj he
  rw [List.getElem?_set_ne (fun he2 => hj he2.symm)] at he
  exact h2 j e hj he

theorem accInv_set_other {P mk es i acc} (hmk : ∀ t, P (mk t) = true)
    (h : AccInv P mk es (some i) acc) (k : Nat) (e0 e1 : StreamReasoningEntry)
    (hk : es[k]? = some e0) (he0 : P e0 = false) (he1 : P e1 = false) :
    AccInv P mk (es.set k e1) (some i) acc := by
  obtain ⟨h1, h2⟩ := h
  have hki : k ≠ i := by
    intro hkeq
    rw [hkeq, h1] at hk
    have heq : mk acc = e0 := Option.some.inj hk
    rw [← heq, hmk acc] at he0
    simp at he0
  refine ⟨by rw [List.getElem?_set_ne hki]; exact h1, ?_⟩
  intro j e hj he
  by_cases hjk : j = k
  · subst hjk
    have hjlt : j < es.length := by
      by_contra hge
      rw [List.getElem?_eq_none (by omega)] at hk
      exact absurd hk (by simp)
    rw [List.getElem?_set_self hjlt] at he
    have heq : e1 = e := Option.some.inj he
    rw [← heq]
    exact he1
  · rw [List.getElem?_set_ne (fun he2 => hjk he2.symm)] at he
    exact h2 j e hj he

theorem accInv_set_none {P mk es acc} (h : AccInv P mk es none acc) (k : Nat)
    (e1 : StreamReasoningEntry) (he1 : P e1 = false) :
    AccInv P mk (es.set k e1) none acc :=
  ⟨h.1, fun e he => (List.mem_or_eq_of_mem_set he).elim (h.2 e) (fun heq => heq ▸ he1)⟩

theorem isThinkE_runToolCall (exec : ToolCall → Except String ToolResult) (call : ToolCall) :
    isThinkE (runToolCall exec call) = false := by
  unfold runToolCall
  cases exec call <;> simp [isThinkE]

theorem isMsgE_runToolCall (exec : ToolCall → Except String ToolResult) (call : ToolCall) :
    isMsgE (runToolCall exec call) = false := by
  unfold runToolCall
  cases exec call <;> simp [isMsgE]

theorem applyThinking_inv (c : ChatChunk) (st : StreamState) (accT accM : String)
    (hT : AccInv isThinkE .thinking st.entries st.currentThinking accT)
    (hM : AccInv isMsgE .message st.entries st.currentMessage accM) :
    AccInv isThinkE .thinking (applyThinking c st).entries
      (applyThinking c st).currentThinking (accT ++ c.thinking) ∧
    AccInv isMsgE .message (applyThinking c st).entries
      (applyThinking c st).currentMessage accM := by
  obtain ⟨es, curT, curM⟩ := st
  unfold applyThinking
  by_cases hc : c.thinking = ""
  · rw [if_pos hc, hc]
    simpa using ⟨hT, hM⟩
  · rw [if_neg hc]
    simp only at hT hM ⊢
    cases curT with
    | some i =>
      obtain ⟨h1, h2⟩ := hT
      have happ : appendThinkingAt es i c.thinking
          = es.set i (.thinking (accT ++ c.thinking)) := by
        unfold appendThinkingAt
        rw [h1]
      simp only [happ]
      refine ⟨accInv_grow ⟨h1, h2⟩ c.thinking, ?_⟩
      cases curM with
      | some j =>
        exact accInv_set_other (fun t => rfl) hM i (.thinking accT)
          (.thinking (accT ++ c.thinking)) h1 rfl rfl
      | none => exact accInv_set_none hM i _ rfl
    | none =>
      obtain ⟨h0, hall⟩ := hT
      subst h0
      constructor
      · simpa using accInv_open ⟨rfl, hall⟩ c.thinking
      · exact accInv_append hM [.thinking c.thinking] (by simp [isMsgE])

theorem applyDelta_inv (c : ChatChunk) (st : StreamState) (accT accM : String)
    (hT : AccInv isThinkE .thinking st.entries st.currentThinking accT)
    (hM : AccInv isMsgE .message st.entries st.currentMessage accM) :
    AccInv isThinkE .thinking (applyDelta c st).entries
      (applyDelta c st).currentThinking accT ∧
    AccInv isMsgE .message (applyDelta c st).entries
      (applyDelta c st).currentMessage (accM ++ c.delta) := by
  obtain ⟨es, curT, curM⟩ := st
  unfold applyDelta
  by_cases hc : c.delta = ""
  · rw [if_pos hc, hc]
    simpa using ⟨hT, hM⟩
  · rw [if_neg hc]
    simp only at hT hM ⊢
    cases curM with
    | some i =>
      obtain ⟨h1, h2⟩ := hM
      have happ : appendMessageAt es i c.delta
          = es.set i (.message (accM ++ c.delta)) := by
        unfold appendMessageAt
        rw [h1]
      simp only [happ]
      refine ⟨?_, accInv_grow ⟨h1, h2⟩ c.delta⟩
      cases curT with
      | some j =>
        exact accInv_set_other (fun t => rfl) hT i (.message accM)
          (.message (accM ++ c.delta)) h1 rfl rfl
      | none => exact accInv_set_none hT i _ rfl
    | none =>
      obtain ⟨h0, hall⟩ := hM
      subst h0
      constructor
      · exact accInv_append hT [.message c.delta] (by simp [isThinkE])
      · simpa using accInv_open ⟨rfl, hall⟩ c.delta

theorem applyToolCalls_inv (exec : ToolCall → Except String ToolResult) (c : ChatChunk)
    (st : StreamState) (accT accM : String)
    (hT : AccInv isThinkE .thinking st.entries st.currentThinking accT)
    (hM : AccInv isMsgE .message st.entries st.currentMessage accM) :
    AccInv isThinkE .thinking (applyToolCalls exec c st).entries
      (applyToolCalls exec c st).currentThinking accT ∧
    AccInv isMsgE .message (applyToolCalls exec c st).entries
      (applyToolCalls exec c st).currentMessage accM := by
  obtain ⟨es, curT, curM⟩ := st
  unfold applyToolCalls
  cases c.toolCalls with
  | none => exact ⟨hT, hM⟩
  | some calls =>
    simp only at hT hM ⊢
    constructor
    · refine accInv_append hT _ ?_
      intro e he
      obtain ⟨call, -, rfl⟩ := List.mem_map.mp he
      exact isThinkE_runToolCall exec call
    · refine accInv_append hM _ ?_
      intro e he
      obtain ⟨call, -, rfl⟩ := List.mem_map.mp he
      exact isMsgE_runToolCall exec call

theorem processChunk_inv (exec : ToolCall → Except String ToolResult) (c : ChatChunk)
    (st : StreamState) (accT accM : String)
    (hT : AccInv isThinkE .thinking st.entries st.currentThinking accT)
    (hM : AccInv isMsgE .message st.entries st.currentMessage accM) :
    AccInv isThinkE .thinking (processChunk exec st c).entries
      (processChunk exec st c).currentThinking (accT ++ c.thinking) ∧
    AccInv isMsgE .message (processChunk exec st c).entries
      (processChunk exec st c).currentMessage (accM ++ c.delta) := by
  unfold processChunk
  obtain ⟨hT1, hM1⟩ := applyThinking_inv c st accT accM hT hM
  obtain ⟨hT2, hM2⟩ := applyDelta_inv c (applyThinking c st) (accT ++ c.thinking) accM hT1 hM1
  exact applyToolCalls_inv exec c (applyDelta c (applyThinking c st))
    (accT ++ c.thinking) (accM ++ c.delta) hT2 hM2

theorem processFold_inv (exec : ToolCall → Except String ToolResult) :
    ∀ (cs : List ChatChunk) (st : StreamState) (accT accM : String),
      AccInv isThinkE .thinking st.entries st.currentThinking accT →
      AccInv isMsgE .message st.entries st.currentMessage accM →
      AccInv isThinkE .thinking (cs.foldl (processChunk exec) st).entries
        (cs.foldl (processChunk exec) st).currentThinking
        (cs.foldl (fun a c => a ++ c.thinking) accT) ∧
      AccInv isMsgE .message (cs.foldl (processChunk exec) st).entries
        (cs.foldl (processChunk exec) st).currentMessage
        (cs.foldl (fun a c => a ++ c.delta) accM) := by
  intro cs
  induction cs with
  | nil => intro st accT accM hT hM; exact ⟨hT, hM⟩
  | cons c rest ih =>
    intro st accT accM hT hM
    obtain ⟨hT1, hM1⟩ := processChunk_inv exec c st accT accM hT hM
    exact ih (processChunk exec st c) (accT ++ c.thinking) (accM ++ c.delta) hT1 hM1

theorem filter_eq_singleton_of_unique {α : Type} (P : α → Bool) :
    ∀ (es : List α) (i : Nat) (x : α), es[i]? = some x → P x = true →
      (∀ (j : Nat) (e : α), j ≠ i → es[j]? = some e → P e = false) →
      es.filter P = [x] := by
  intro es
  induction es with
  | nil => intro i x hx; simp at hx
  | cons a t ih =>
    intro i x hx hPx hothers
    cases i with
    | zero =>
      have hax : a = x := by simpa using hx
      subst hax
      rw [List.filter_cons_of_pos hPx]
      have ht : t.filter P = [] := by
        rw [List.filter_eq_nil_iff]
        intro e he
        obtain ⟨q, hq⟩ := getElem?_of_mem he
        have : P e = false := hothers (q + 1) e (by omega) (by simpa using hq)
        simp [this]
      rw [ht]
    | succ k =>
      have ha : P a = false := hothers 0 a (by omega) (by simp)
      rw [List.filter_cons_of_neg (by simp [ha])]
      refine ih k x (by simpa using hx) hPx ?_
      intro j e hj he
      exact hothers (j + 1) e (by omega) (by simpa using he)

theorem accInv_filter {P : StreamReasoningEntry → Bool} {mk : String → StreamReasoningEntry}
    {es : List StreamReasoningEntry} {cur : Option Nat} {acc : String}
    (hmk : ∀ t, P (mk t) = true) (h : AccInv P mk es cur acc) :
    (es.filter P = [] ∧ acc = "") ∨ es.filter P = [mk acc] := by
  cases cur with
  | none =>
    obtain ⟨h1, h2⟩ := h
    exact Or.inl ⟨List.filter_eq_nil_iff.mpr (fun e he => by simp [h2 e he]), h1⟩
  | some i =>
    obtain ⟨h1, h2⟩ := h
    exact Or.inr (filter_eq_singleton_of_unique P es i (mk acc) h1 (hmk acc) h2)

/-- C4 (amended): while `processStream` processes one response stream, a
new `thinking` or `message` entry is opened only when none is currently
open for that kind — but the accumulators are NEVER closed: appending a
`tool_call` (or an entry of the other kind) does not end them, so a later
same-kind fragment resumes the original entry. Consequently one stream
produces at most one `thinking` entry and at most one `message` entry,
each holding the concatenation of every fragment of its kind in stream
order. -/
theorem processStream_entry_discipline (exec : ToolCall → Except String ToolResult)
    (stream : List ChatChunk) :
    (((processStream exec stream).entries.filter isThinkE = [] ∧
        streamConcat (fun c => c.thinking) stream = "") ∨
      (processStream exec stream).entries.filter isThinkE
        = [.thinking (streamConcat (fun c => c.thinking) stream)]) ∧
    (((processStream exec stream).entries.filter isMsgE = [] ∧
        streamConcat (fun c => c.delta) stream = "") ∨
      (processStream exec stream).entries.filter isMsgE
        = [.message (streamConcat (fun c => c.delta) stream)]) := by
  obtain ⟨hT, hM⟩ := processFold_inv exec stream
    { entries := [], currentThinking := none, currentMessage := none } "" ""
    ⟨rfl, by simp⟩ ⟨rfl, by simp⟩
  exact ⟨accInv_filter (fun t => rfl) hT, accInv_filter (fun t => rfl) hM⟩

/-- A tool executor stub that always succeeds with the string "ok". -/
def demoExec : ToolCall → Except String ToolResult :=
  fun _ => .ok { success := true, data := some (.str "ok") }

def demoStreamCall : ToolCall := { id := "c1", name := "demo", input := [] }

/-- C4 counterexample: a thinking fragment, then a tool call, then another
thinking fragment. The claimed behavior would close the first thinking
entry at the tool call and open a new one (three entries, the last being
`thinking "B"`); the source keeps the accumulator open, so the trace has
exactly two entries and the single thinking entry reads "AB". -/
theorem processStream_toolcall_keeps_accumulator_counterexample :
    (processStream demoExec
        [{ thinking := "A" }, { toolCalls := some [demoStreamCall] },
          { thinking := "B" }]).entries
      = [.thinking "AB", .toolCall "demo" [] (some (.str "ok")) "success"] ∧
    (processStream demoExec
        [{ thinking := "A" }, { toolCalls := some [demoStreamCall] },
          { thinking := "B" }]).entries.length = 2 :=
  ⟨rfl, rfl⟩

/-! ## RAG text utilities (chili-copilot-rag/src/utils.ts)

`estimateTokens` and `chunkText`, embedded at character level. The two
regexes are embedded with JavaScript matching semantics: the paragraph
split `/\n\s*\n/` matches greedily with backtracking (a newline, then
whitespace up to the last newline of the following whitespace run), and
the sentence pattern `/[^.!?]+[.!?]+\s*/g` yields successive leftmost
matches, dropping any trailing text without a sentence terminator. The
whitespace class covers the ASCII whitespace characters. -/

def jsIsWs (c : Char) : Bool :=
  c == ' ' || c == '\t' || c == '\n' || c == '\r' || c == '\u000B' || c == '\u000C'

def jsTrimChars (s : List Char) : List Char :=
  ((s.dropWhile jsIsWs).reverse.dropWhile jsIsWs).reverse

def jsTrimStr (s : String) : String :=
  String.mk (jsTrimChars s.data)

/-- `estimateTokens`: 0 for the empty string, else `Math.ceil(len / 4)`. -/
def estimateTokens (s : String) : Nat :=
  if s = "" then 0 else (s.length + 3) / 4

/-- Index of the last <code>\n</code> in a list, if any. -/
def lastNewlineIdx : List Char → Option Nat
  | [] => none
  | c :: rest =>
    match lastNewlineIdx rest with
    | some j => some (j + 1)
    | none => if c = '\n' then some 0 else none

/-- `text.split(/\n\s*\n/)`: scan for a newline whose following
whitespace run contains another newline; the greedy match ends at the
last such newline. `cur` is the reversed accumulator of the current
piece. -/
def paraSplitF (fuel : Nat) (l : List Char) (cur : List Char) : List (List Char) :=
  match fuel with
  | 0 => [cur.reverse]
  | fuel + 1 =>
    match l with
    | [] => [cur.reverse]
    | c :: rest =>
      if c = '\n' then
        match lastNewlineIdx (rest.takeWhile jsIsWs) with
        | some k => cur.reverse :: paraSplitF fuel (rest.drop (k + 1)) []
        | none => paraSplitF fuel rest (c :: cur)
      else paraSplitF fuel rest (c :: cur)

def paraSplit (l : List Char) (cur : List Char) : List (List Char) :=
  paraSplitF (l.length + 1) l cur

def jsParagraphs (text : String) : List String :=
  (paraSplit text.data []).map String.mk

def isSentencePunct (c : Char) : Bool :=
  c == '.' || c == '!' || c == '?'

/-- Successive matches of `/[^.!?]+[.!?]+\s*/g`: a maximal nonempty run
without sentence punctuation, a maximal nonempty punctuation run, then
the following whitespace; positions where no match starts are skipped. -/
def sentencesAuxF (fuel : Nat) (r : List Char) : List (List Char) :=
  match fuel with
  | 0 => []
  | fuel + 1 =>
    match r with
    | [] => []
    | c :: rest =>
      if isSentencePunct c then sentencesAuxF fuel rest
      else
        let a2 := rest.takeWhile (fun x => !isSentencePunct x)
        let r1 := rest.drop a2.length
        match r1 with
        | [] => []
        | _ =>
          let b := r1.takeWhile isSentencePunct
          let r2 := r1.drop b.length
          let w := r2.takeWhile jsIsWs
          ((c :: a2) ++ b ++ w) :: sentencesAuxF fuel (r2.drop w.length)

def sentencesAux (r : List Char) : List (List Char) :=
  sentencesAuxF (r.length + 1) r

/-- `trimmed.match(/[^.!?]+[.!?]+\s*/g) ?? [trimmed]`. -/
def jsSentences (s : String) : List String :=
  match sentencesAux s.data with
  | [] => [s]
  | l => l.map String.mk

/-- The character-window loop `for (let i = 0; i < len; i += step)`,
with enough fuel for any positive step (the source loops forever when
`maxChars ≤ overlapChars`; the embedding then stops at the fuel bound). -/
def charWindowsAux (s : List Char) (maxChars step : Nat) : Nat → Nat → List (List Char)
  | _, 0 => []
  | i, fuel + 1 =>
    if i < s.length then
      jsTrimChars ((s.drop i).take maxChars) :: charWindowsAux s maxChars step (i + step) fuel
    else []

def charWindows (sen : String) (maxChars overlapChars : Nat) : List String :=
  (charWindowsAux sen.data maxChars (maxChars - overlapChars) 0 sen.data.length).map
    String.mk

/-- The inner sentence loop of `chunkText`, carrying the chunk list and
the sentence accumulator. -/
def sentenceLoop (maxTokens maxChars overlapChars : Nat) :
    List String → List String → String → List String
  | [], chunks, sentenceChunk =>
    if sentenceChunk = "" then chunks else chunks ++ [jsTrimStr sentenceChunk]
  | sen :: rest, chunks, sentenceChunk =>
    if estimateTokens (sentenceChunk ++ sen) ≤ maxTokens then
      sentenceLoop maxTokens maxChars overlapChars rest chunks (sentenceChunk ++ sen)
    else
      let chunks1 := if sentenceChunk = "" then chunks else chunks ++ [jsTrimStr sentenceChunk]
      if sen.length > maxChars then
        sentenceLoop maxTokens maxChars overlapChars rest
          (chunks1 ++ charWindows sen maxChars overlapChars) ""
      else
        sentenceLoop maxTokens maxChars overlapChars rest chunks1 sen

/-- The outer paragraph loop of `chunkText`, carrying the chunk list and
the current paragraph group. -/
def paraLoop (maxTokens maxChars overlapChars : Nat) :
    List String → List String → String → List String
  | [], chunks, current => if current = "" then chunks else chunks ++ [current]
  | para :: rest, chunks, current =>
    let trimmed := jsTrimStr para
    if trimmed = "" then paraLoop maxTokens maxChars overlapChars rest chunks current
    else if estimateTokens (current ++ "\n\n" ++ trimmed) ≤ maxTokens then
      paraLoop maxTokens maxChars overlapChars rest chunks
        (if current = "" then trimmed else current ++ "\n\n" ++ trimmed)
    else
      let chunks1 := if current = "" then chunks else chunks ++ [current]
      if estimateTokens trimmed > maxTokens then
        paraLoop maxTokens maxChars overlapChars rest
          (sentenceLoop maxTokens maxChars overlapChars (jsSentences trimmed) chunks1 "") ""
      else
        paraLoop maxTokens maxChars overlapChars rest chunks1 trimmed

structure ChunkOptions where
  maxTokens : Nat
  overlap : Nat

/-- `chunkText(text, { maxTokens, overlap })`. -/
def chunkText (text : String) (options : ChunkOptions) : List String :=
  if text = "" then []
  else
    (paraLoop options.maxTokens (options.maxTokens * 4) (options.overlap * 4)
        (jsParagraphs text) [] "").filter (fun c => c.length > 0)

/-- Join a list of strings with a separator (what `Array.join` /
`intercalate` denote; spelled out to reason by recursion). -/
def joinSep (sep : String) : List String → String
  | [] => ""
  | [x] => x
  | x :: xs => x ++ sep ++ joinSep sep xs

theorem joinSep_append_singleton (sep t : String) :
    ∀ (g : List String), g ≠ [] → joinSep sep (g ++ [t]) = joinSep sep g ++ sep ++ t := by
  intro g
  induction g with
  | nil => intro h; exact absurd rfl h
  | cons x xs ih =>
    intro _
    cases xs with
    | nil => rfl
    | cons y ys =>
      show joinSep sep (x :: (y :: ys) ++ [t]) = joinSep sep (x :: y :: ys) ++ sep ++ t
      have h1 : joinSep sep (x :: (y :: ys) ++ [t])
          = x ++ sep ++ joinSep sep ((y :: ys) ++ [t]) := by
        cases ys <;> rfl
      rw [h1, ih (by simp)]
      have h2 : joinSep sep (x :: y :: ys) = x ++ sep ++ joinSep sep (y :: ys) := rfl
      rw [h2]
      simp [String.append_assoc]

theorem str_length_pos (s : String) (h : s ≠ "") : 0 < s.length := by
  cases s with
  | mk data =>
    cases data with
    | nil => simp at h
    | cons c cs => simp [String.length]

theorem joinSep_ne_empty (sep : String) :
    ∀ (g : List String), g ≠ [] → (∀ x ∈ g, x ≠ "") → joinSep sep g ≠ "" := by
  intro g
  induction g with
  | nil => intro h; exact absurd rfl h
  | cons x xs ih =>
    intro _ hall
    cases xs with
    | nil => exact hall x (by simp)
    | cons y ys =>
      show x ++ sep ++ joinSep sep (y :: ys) ≠ ""
      intro hc
      have hlen := congrArg String.length hc
      rw [String.length_append, String.length_append] at hlen
      have hx := str_length_pos x (hall x (by simp))
      simp at hlen
      omega

/-- The paragraph grouping that `chunkText` performs when every trimmed
paragraph fits in the token budget: consecutive nonempty trimmed
paragraphs are merged while the joined text stays within `maxTokens`. -/
def paraGroup (maxTokens : Nat) : List String → String → List String
  | [], current => if current = "" then [] else [current]
  | para :: rest, current =>
    let trimmed := jsTrimStr para
    if trimmed = "" then paraGroup maxTokens rest current
    else if estimateTokens (current ++ "\n\n" ++ trimmed) ≤ maxTokens then
      paraGroup maxTokens rest
        (if current = "" then trimmed else current ++ "\n\n" ++ trimmed)
    else (if current = "" then [] else [current]) ++ paraGroup maxTokens rest trimmed

theorem paraLoop_eq_paraGroup (maxTokens maxChars overlapChars : Nat) :
    ∀ (rest chunks : List String) (current : String),
      (∀ p ∈ rest, estimateTokens (jsTrimStr p) ≤ maxTokens) →
      paraLoop maxTokens maxChars overlapChars rest chunks current
        = chunks ++ paraGroup maxTokens rest current := by
  intro rest
  induction rest with
  | nil =>
    intro chunks current _
    unfold paraLoop paraGroup
    by_cases hc : current = "" <;> simp [hc]
  | cons p rest ih =>
    intro chunks current hfit
    unfold paraLoop paraGroup
    by_cases ht : jsTrimStr p = ""
    · rw [if_pos ht, if_pos ht]
      exact ih chunks current (fun q hq => hfit q (by simp [hq]))
    · rw [if_neg ht, if_neg ht]
      by_cases hsm : estimateTokens (current ++ "\n\n" ++ jsTrimStr p) ≤ maxTokens
      · rw [if_pos hsm, if_pos hsm]
        exact ih chunks _ (fun q hq => hfit q (by simp [hq]))
      · rw [if_neg hsm, if_neg hsm]
        have hbig : ¬ estimateTokens (jsTrimStr p) > maxTokens := by
          have := hfit p (by simp)
          omega
        rw [if_neg hbig]
        rw [ih _ _ (fun q hq => hfit q (by simp [hq]))]
        by_cases hc : current = "" <;> simp [hc]

theorem paraGroup_blocks (maxTokens : Nat) :
    ∀ (rest : List String) (current : String) (g0 : List String),
      ((current = "" ∧ g0 = []) ∨ (g0 ≠ [] ∧ current = joinSep "\n\n" g0)) →
      (∀ x ∈ g0, x ≠ "") →
      ∃ gs : List (List String),
        gs.flatten = g0 ++ ((rest.map jsTrimStr).filter (fun t => t ≠ "")) ∧
        (∀ g ∈ gs, g ≠ [] ∧ ∀ x ∈ g, x ≠ "") ∧
        paraGroup maxTokens rest current = gs.map (joinSep "\n\n") := by
  intro rest
  induction rest with
  | nil =>
    intro current g0 hinv hne
    rcases hinv with ⟨hc, hg⟩ | ⟨hg, hc⟩
    · exact ⟨[], by simp [hg], by simp, by simp [paraGroup, hc]⟩
    · refine ⟨[g0], by simp, ?_, ?_⟩
      · intro g hg2
        rcases List.mem_cons.mp hg2 with h | h
        · exact h ▸ ⟨hg, hne⟩
        · simp at h
      · have hcne : current ≠ "" := by
          rw [hc]; exact joinSep_ne_empty _ g0 hg hne
        unfold paraGroup
        rw [if_neg hcne, hc]
        simp
  | cons p rest ih =>
    intro current g0 hinv hne
    by_cases ht : jsTrimStr p = ""
    · obtain ⟨gs, h1, h2, h3⟩ := ih current g0 hinv hne
      refine ⟨gs, ?_, h2, ?_⟩
      · rw [h1]; simp [List.filter_cons, ht]
      · unfold paraGroup
        rw [if_pos ht]
        exact h3
    · by_cases hsm : estimateTokens (current ++ "\n\n" ++ jsTrimStr p) ≤ maxTokens
      · rcases hinv with ⟨hc, hg⟩ | ⟨hg, hc⟩
        · obtain ⟨gs, h1, h2, h3⟩ := ih (jsTrimStr p) [jsTrimStr p]
            (Or.inr ⟨by simp, rfl⟩) (by simpa using ht)
          refine ⟨gs, ?_, h2, ?_⟩
          · rw [h1, hg]; simp [List.filter_cons, ht]
          · unfold paraGroup
            rw [if_neg ht, if_pos hsm, if_pos hc]
            exact h3
        · have hcne : current ≠ "" := by
            rw [hc]; exact joinSep_ne_empty _ g0 hg hne
          obtain ⟨gs, h1, h2, h3⟩ := ih (current ++ "\n\n" ++ jsTrimStr p)
            (g0 ++ [jsTrimStr p])
            (Or.inr ⟨by simp, by
              rw [joinSep_append_singleton _ _ g0 hg, hc]⟩)
            (by
              intro x hx
              rcases List.mem_append.mp hx with hx | hx
              · exact hne x hx
              · simpa using (by simpa using hx : x = jsTrimStr p) ▸ ht)
          refine ⟨gs, ?_, h2, ?_⟩
          · rw [h1]; simp [List.filter_cons, ht]
          · unfold paraGroup
            rw [if_neg ht, if_pos hsm, if_neg hcne]
            exact h3
      · obtain ⟨gs, h1, h2, h3⟩ := ih (jsTrimStr p) [jsTrimStr p]
          (Or.inr ⟨by simp, rfl⟩) (by simpa using ht)
        rcases hinv with ⟨hc, hg⟩ | ⟨hg, hc⟩
        · refine ⟨gs, ?_, h2, ?_⟩
          · rw [h1, hg]; simp [List.filter_cons, ht]
          · unfold paraGroup
            rw [if_neg ht, if_neg hsm, if_pos hc]
            simpa using h3
        · have hcne : current ≠ "" := by
            rw [hc]; exact joinSep_ne_empty _ g0 hg hne
          refine ⟨g0 :: gs, ?_, ?_, ?_⟩
          · rw [List.flatten_cons, h1]; simp [List.filter_cons, ht]
          · intro g hg2
            rcases List.mem_cons.mp hg2 with hg2 | hg2
            · exact hg2 ▸ ⟨hg, hne⟩
            · exact h2 g hg2
          · unfold paraGroup
            rw [if_neg ht, if_neg hsm, if_neg hcne]
            rw [h3, hc]
            rfl

/-- C9 (amended): `estimateTokens ""` is 0 and `chunkText "" _` is the
empty sequence; and whenever every trimmed paragraph of the text fits in
`maxTokens`, the chunks partition the nonempty trimmed paragraphs into
consecutive nonempty groups, each chunk being its group joined by blank
lines — concatenating the chunks in output order then reconstructs the
paragraphs in original order. Without that bound, reconstruction fails:
an oversized paragraph is split at sentence terminators and a trailing
fragment with no terminator is dropped (see the counterexample). -/
theorem chunkText_paragraph_reconstruction (options : ChunkOptions) (text : String)
    (hfit : ∀ p ∈ jsParagraphs text, estimateTokens (jsTrimStr p) ≤ options.maxTokens) :
    estimateTokens "" = 0 ∧ chunkText "" options = [] ∧
    ∃ gs : List (List String),
      gs.flatten = ((jsParagraphs text).map jsTrimStr).filter (fun t => t ≠ "") ∧
      (∀ g ∈ gs, g ≠ []) ∧
      chunkText text options = gs.map (joinSep "\n\n") := by
  refine ⟨rfl, rfl, ?_⟩
  by_cases htext : text = ""
  · subst htext
    exact ⟨[], by rfl, by simp, by simp [chunkText]⟩
  · obtain ⟨gs, h1, h2, h3⟩ := paraGroup_blocks options.maxTokens (jsParagraphs text) ""
      [] (Or.inl ⟨rfl, rfl⟩) (by simp)
    refine ⟨gs, by simpa using h1, fun g hg => (h2 g hg).1, ?_⟩
    unfold chunkText
    rw [if_neg htext]
    rw [paraLoop_eq_paraGroup _ _ _ _ _ _ hfit]
    simp only [List.nil_append]
    rw [h3]
    apply List.filter_eq_self.mpr
    intro c hc
    obtain ⟨g, hg, rfl⟩ := List.mem_map.mp hc
    have hne := joinSep_ne_empty "\n\n" g (h2 g hg).1 (h2 g hg).2
    simp only [decide_eq_true_eq]
    exact str_length_pos _ hne

/-- C9 counterexample: the single paragraph "a. bcd" with a 1-token
budget is sentence-split; the trailing "bcd" carries no sentence
terminator, matches nothing, and is silently dropped — the output is
["a."], whose concatenation cannot reconstruct the paragraph. -/
theorem chunkText_drops_text_counterexample :
    jsParagraphs "a. bcd" = ["a. bcd"] ∧
    chunkText "a. bcd" { maxTokens := 1, overlap := 0 } = ["a."] ∧
    String.join (chunkText "a. bcd" { maxTokens := 1, overlap := 0 }) ≠ "a. bcd" :=
  ⟨rfl, rfl, by decide⟩

/-- Witness for C9 at a two-paragraph text fitting a 100-token budget. -/
theorem chunkText_paragraph_reconstruction_witness :
    (∀ p ∈ jsParagraphs "Hello there.\n\nBye now.",
      estimateTokens (jsTrimStr p) ≤ ChunkOptions.maxTokens { maxTokens := 100, overlap := 0 }) ∧
    (estimateTokens "" = 0 ∧
      chunkText "" { maxTokens := 100, overlap := 0 } = [] ∧
      ∃ gs : List (List String),
        gs.flatten = ((jsParagraphs "Hello there.\n\nBye now.").map jsTrimStr).filter
          (fun t => t ≠ "") ∧
        (∀ g ∈ gs, g ≠ []) ∧
        chunkText "Hello there.\n\nBye now." { maxTokens := 100, overlap := 0 }
          = gs.map (joinSep "\n\n")) :=
  ⟨by decide, chunkText_paragraph_reconstruction { maxTokens := 100, overlap := 0 }
    "Hello there.\n\nBye now." (by decide)⟩

/-! ## In-memory vector store (in-memory-vector-store.ts, utils.ts)

Vectors are lists of rationals; `Math.sqrt` is abstracted as a function
parameter `sqrtFn` (the only fact used is `sqrtFn 0 = 0`). Thrown
exceptions are `Except.error` / an error component. The document map is
a `JsMap` keyed by id, so `set` overwrites in place and `values()`
iterates in insertion order. -/

structure VectorDocument where
  id : String
  text : String
  embedding : List ℚ
  metaSource : Option String := none
  metaNodeId : Option String := none
deriving DecidableEq

structure MetadataFilter where
  source : Option String := none
  nodeId : Option String := none

structure SearchResult where
  document : VectorDocument
  score : ℚ

structure InMemoryVectorStore where
  name : String
  dimensions : Nat
  documents : JsMap String VectorDocument

def dotOf (a b : List ℚ) : ℚ :=
  (a.zip b).foldl (fun acc p => acc + p.1 * p.2) 0

def normSqOf (a : List ℚ) : ℚ :=
  a.foldl (fun acc x => acc + x * x) 0

/-- `cosineSimilarity(a, b)`: throws on length mismatch; returns exactly
0 when the denominator is zero. -/
def cosineSimilarity (sqrtFn : ℚ → ℚ) (a b : List ℚ) : Except String ℚ :=
  if a.length ≠ b.length then
    .error ("Vector dimensions mismatch: " ++ toString a.length ++ " vs " ++ toString b.length)
  else if sqrtFn (normSqOf a) * sqrtFn (normSqOf b) = 0 then .ok 0
  else .ok (dotOf a b / (sqrtFn (normSqOf a) * sqrtFn (normSqOf b)))

/-- The value `cosineSimilarity` computes once the length check passed. -/
def cosValue (sqrtFn : ℚ → ℚ) (a b : List ℚ) : ℚ :=
  if sqrtFn (normSqOf a) * sqrtFn (normSqOf b) = 0 then 0
  else dotOf a b / (sqrtFn (normSqOf a) * sqrtFn (normSqOf b))

/-- JavaScript truthiness of an optional string filter field. -/
def strTruthy : Option String → Bool
  | some s => s ≠ ""
  | none => false

/-- The two `continue` guards of the search loop. -/
def passesFilter (filter : Option MetadataFilter) (doc : VectorDocument) : Bool :=
  match filter with
  | none => true
  | some f =>
    (if strTruthy f.source then doc.metaSource == f.source else true) &&
    (if strTruthy f.nodeId then doc.metaNodeId == f.nodeId else true)

/-- `(a, b) => b.score - a.score`: descending by score, stable on ties. -/
def scoreLe (x y : SearchResult) : Bool := decide (y.score ≤ x.score)

/-- `upsert(documents)`: inserts documents one by one; a dimension
mismatch throws immediately, leaving the documents already inserted in
place and the remainder unprocessed. -/
def upsert (store : InMemoryVectorStore) :
    List VectorDocument → InMemoryVectorStore × Option String
  | [] => (store, none)
  | doc :: rest =>
    if doc.embedding.length ≠ store.dimensions then
      (store, some ("Embedding dimensions mismatch: expected "
        ++ toString store.dimensions ++ ", got " ++ toString doc.embedding.length))
    else
      upsert { store with documents := JsMap.set store.documents doc.id doc } rest

/-- `search(query, topK, filter?)`. -/
def search (sqrtFn : ℚ → ℚ) (store : InMemoryVectorStore) (query : List ℚ)
    (topK : Nat) (filter : Option MetadataFilter) : Except String (List SearchResult) :=
  if query.length ≠ store.dimensions then
    .error ("Query dimensions mismatch: expected " ++ toString store.dimensions
      ++ ", got " ++ toString query.length)
  else
    (((store.documents.map Prod.snd).filter (passesFilter filter)).mapM (fun doc =>
      (cosineSimilarity sqrtFn query doc.embedding).map
        (fun score => SearchResult.mk doc score))).map
      (fun results => (results.mergeSort scoreLe).take topK)

theorem cosineSimilarity_ok (sqrtFn : ℚ → ℚ) (a b : List ℚ) (h : a.length = b.length) :
    cosineSimilarity sqrtFn a b = .ok (cosValue sqrtFn a b) := by
  unfold cosineSimilarity cosValue
  rw [if_neg (by omega)]
  by_cases hd : sqrtFn (normSqOf a) * sqrtFn (normSqOf b) = 0
  · rw [if_pos hd, if_pos hd]
  · rw [if_neg hd, if_neg hd]

theorem mapM_cosine (sqrtFn : ℚ → ℚ) (query : List ℚ) :
    ∀ (l : List VectorDocument), (∀ d ∈ l, d.embedding.length = query.length) →
      l.mapM (fun doc =>
        (cosineSimilarity sqrtFn query doc.embedding).map
          (fun score => SearchResult.mk doc score))
        = Except.ok (l.map (fun doc =>
            SearchResult.mk doc (cosValue sqrtFn query doc.embedding))) := by
  intro l
  induction l with
  | nil => intro _; rfl
  | cons d rest ih =>
    intro hall
    rw [List.mapM_cons]
    rw [cosineSimilarity_ok sqrtFn query d.embedding (hall d (by simp)).symm]
    rw [ih (fun e he => hall e (by simp [he]))]
    rfl

/-- C6: `search` rejects a query whose length differs from the store
dimensionality; otherwise it returns exactly the retained documents
passing the metadata filter, scored by cosine similarity, sorted
descending by score (stably), truncated to at most `topK`; similarity is
exactly 0 whenever either vector has zero norm; and `upsert` of a
well-dimensioned document succeeds and overwrites the entry at its id. -/
theorem InMemoryVectorStore_search_contract (sqrtFn : ℚ → ℚ)
    (store : InMemoryVectorStore) (query : List ℚ) (topK : Nat)
    (filter : Option MetadataFilter)
    (hsqrt : sqrtFn 0 = 0)
    (hdocs : ∀ kv ∈ store.documents, (Prod.snd kv).embedding.length = store.dimensions) :
    (query.length ≠ store.dimensions →
      search sqrtFn store query topK filter
        = .error ("Query dimensions mismatch: expected " ++ toString store.dimensions
            ++ ", got " ++ toString query.length)) ∧
    (query.length = store.dimensions →
      search sqrtFn store query topK filter
        = .ok (((((store.documents.map Prod.snd).filter (passesFilter filter)).map
            (fun doc => SearchResult.mk doc (cosValue sqrtFn query doc.embedding))).mergeSort
              scoreLe).take topK) ∧
      ∀ res, search sqrtFn store query topK filter = .ok res →
        res.length ≤ topK ∧ List.Pairwise (fun x y => y.score ≤ x.score) res) ∧
    (∀ b : List ℚ, normSqOf query = 0 ∨ normSqOf b = 0 → cosValue sqrtFn query b = 0) ∧
    (∀ doc : VectorDocument, doc.embedding.length = store.dimensions →
      (upsert store [doc]).2 = none ∧
      JsMap.get (upsert store [doc]).1.documents doc.id = some doc) := by
  have hsearch : query.length = store.dimensions →
      search sqrtFn store query topK filter
        = .ok (((((store.documents.map Prod.snd).filter (passesFilter filter)).map
            (fun doc => SearchResult.mk doc (cosValue sqrtFn query doc.embedding))).mergeSort
              scoreLe).take topK) := by
    intro hq
    have hlen : ∀ d ∈ (store.documents.map Prod.snd).filter (passesFilter filter),
        d.embedding.length = query.length := by
      intro d hd
      have hd2 := List.mem_of_mem_filter hd
      obtain ⟨kv, hkv, rfl⟩ := List.mem_map.mp hd2
      rw [hdocs kv hkv, hq]
    unfold search
    rw [if_neg (by omega)]
    rw [show ((store.documents.map Prod.snd).filter (passesFilter filter)).mapM (fun doc =>
      (cosineSimilarity sqrtFn query doc.embedding).map
        (fun score => SearchResult.mk doc score)) = _ from mapM_cosine sqrtFn query _ hlen]
    rfl
  refine ⟨?_, ?_, ?_, ?_⟩
  · intro hne
    unfold search
    rw [if_pos hne]
  · intro hq
    refine ⟨hsearch hq, ?_⟩
    intro res hres
    rw [hsearch hq] at hres
    have hres2 := Except.ok.inj hres
    subst hres2
    constructor
    · exact List.length_take_le topK _
    · have hsorted := @List.sorted_mergeSort SearchResult scoreLe
        (fun a b c hab hbc => by
          simp only [scoreLe, decide_eq_true_eq] at hab hbc ⊢
          exact le_trans hbc hab)
        (fun a b => by
          simp only [scoreLe]
          rcases le_total a.score b.score with h | h <;> simp [h])
        (((store.documents.map Prod.snd).filter (passesFilter filter)).map
          (fun doc => SearchResult.mk doc (cosValue sqrtFn query doc.embedding)))
      have hpw := List.Pairwise.sublist (List.take_sublist topK _) hsorted
      exact hpw.imp (fun h => by simpa [scoreLe, decide_eq_true_eq] using h)
  · intro b hb
    rcases hb with h | h
    · simp [cosValue, h, hsqrt]
    · simp [cosValue, h, hsqrt]
  · intro doc hdim
    unfold upsert
    rw [if_neg (by omega)]
    exact ⟨rfl, JsMap.get_set_self store.documents doc.id doc⟩

def demoDoc1 : VectorDocument := { id := "d1", text := "one", embedding := [1, 0] }

def demoStore : InMemoryVectorStore :=
  { name := "s", dimensions := 2, documents := [("d1", demoDoc1)] }

/-- Witness for C6 at a one-document two-dimensional store, with the
identity standing in for the square root. -/
theorem InMemoryVectorStore_search_contract_witness :
    (([1, 0] : List ℚ).length ≠ demoStore.dimensions →
      search (fun q => q) demoStore [1, 0] 5 none
        = .error ("Query dimensions mismatch: expected " ++ toString demoStore.dimensions
            ++ ", got " ++ toString ([1, 0] : List ℚ).length)) ∧
    (([1, 0] : List ℚ).length = demoStore.dimensions →
      search (fun q => q) demoStore [1, 0] 5 none
        = .ok (((((demoStore.documents.map Prod.snd).filter (passesFilter none)).map
            (fun doc =>
              SearchResult.mk doc (cosValue (fun q => q) [1, 0] doc.embedding))).mergeSort
              scoreLe).take 5) ∧
      ∀ res, search (fun q => q) demoStore [1, 0] 5 none = .ok res →
        res.length ≤ 5 ∧ List.Pairwise (fun x y => y.score ≤ x.score) res) ∧
    (∀ b : List ℚ, normSqOf [1, 0] = 0 ∨ normSqOf b = 0 →
      cosValue (fun q => q) [1, 0] b = 0) ∧
    (∀ doc : VectorDocument, doc.embedding.length = demoStore.dimensions →
      (upsert demoStore [doc]).2 = none ∧
      JsMap.get (upsert demoStore [doc]).1.documents doc.id = some doc) :=
  InMemoryVectorStore_search_contract (fun q => q) demoStore [1, 0] 5 none rfl (by decide)

theorem upsert_append_error (bad : VectorDocument) (rest : List VectorDocument) :
    ∀ (pre : List VectorDocument) (store : InMemoryVectorStore),
      (∀ d ∈ pre, d.embedding.length = store.dimensions) →
      bad.embedding.length ≠ store.dimensions →
      (upsert store (pre ++ bad :: rest)).2
        = some ("Embedding dimensions mismatch: expected " ++ toString store.dimensions
            ++ ", got " ++ toString bad.embedding.length) ∧
      (∀ k : String, (∀ e ∈ pre, e.id ≠ k) →
        JsMap.get (upsert store (pre ++ bad :: rest)).1.documents k
          = JsMap.get store.documents k) ∧
      ((pre.map (fun d => d.id)).Nodup →
        ∀ d ∈ pre,
          JsMap.get (upsert store (pre ++ bad :: rest)).1.documents d.id = some d) := by
  intro pre
  induction pre with
  | nil =>
    intro store _ hbad
    rw [List.nil_append]
    unfold upsert
    rw [if_pos hbad]
    exact ⟨rfl, fun k _ => rfl, fun _ d hd => absurd hd (by simp)⟩
  | cons d pre ih =>
    intro store hpre hbad
    rw [List.cons_append]
    unfold upsert
    rw [if_neg (by have := hpre d (by simp); omega)]
    have IH := ih { store with documents := JsMap.set store.documents d.id d }
      (fun e he => hpre e (by simp [he])) hbad
    refine ⟨IH.1, ?_, ?_⟩
    · intro k hk
      rw [IH.2.1 k (fun e he => hk e (by simp [he]))]
      exact JsMap.get_set_ne store.documents d.id k d (hk d (by simp))
    · intro hnodup d2 hd2
      have hn : (∀ x ∈ pre, ¬x.id = d.id) ∧ (List.map (fun e => e.id) pre).Nodup := by
        simpa using hnodup
      rcases List.mem_cons.mp hd2 with rfl | hd2
      · rw [IH.2.1 d2.id (fun e he heq => hn.1 e he heq)]
        exact JsMap.get_set_self store.documents d2.id d2
      · exact IH.2.2 hn.2 d2 hd2

/-- C10: `upsert` is not atomic on error — with a batch whose documents
before position k are well-dimensioned (and carry distinct ids) and whose
k-th document has mismatched embedding length, the call throws the
dimension-mismatch error, yet every document before position k has been
inserted and remains retrievable by id. -/
theorem upsert_not_atomic_on_error (store : InMemoryVectorStore)
    (pre rest : List VectorDocument) (bad : VectorDocument)
    (hpre : ∀ d ∈ pre, d.embedding.length = store.dimensions)
    (hbad : bad.embedding.length ≠ store.dimensions)
    (hnodup : (pre.map (fun d => d.id)).Nodup) :
    (upsert store (pre ++ bad :: rest)).2
      = some ("Embedding dimensions mismatch: expected " ++ toString store.dimensions
          ++ ", got " ++ toString bad.embedding.length) ∧
    ∀ d ∈ pre, JsMap.get (upsert store (pre ++ bad :: rest)).1.documents d.id = some d :=
  ⟨(upsert_append_error bad rest pre store hpre hbad).1,
    (upsert_append_error bad rest pre store hpre hbad).2.2 hnodup⟩

def preDoc : VectorDocument := { id := "p1", text := "p", embedding := [0, 1] }

def badDoc : VectorDocument := { id := "bad", text := "b", embedding := [1] }

/-- Witness for C10: a two-document batch whose second document has the
wrong dimensionality throws, yet the first document is retrievable. -/
theorem upsert_not_atomic_on_error_witness :
    (upsert demoStore ([preDoc] ++ badDoc :: [])).2
      = some ("Embedding dimensions mismatch: expected " ++ toString demoStore.dimensions
          ++ ", got " ++ toString badDoc.embedding.length) ∧
    ∀ d ∈ [preDoc],
      JsMap.get (upsert demoStore ([preDoc] ++ badDoc :: [])).1.documents d.id = some d :=
  upsert_not_atomic_on_error demoStore [preDoc] [] badDoc (by decide) (by decide) (by decide)

/-! ## Context assembler (context-assembler.ts)

The RAG portion of `buildContext`: JavaScript numbers are idealised as
exact arithmetic (`Int` token counts, `0.4` as `2/5` with `Int.floor`;
the floating-point and exact floors agree for any realistic budget). The
async environment is abstracted: `storeCount` is `vectorStore.count`,
`embedOk` is false when `embedText`/`search` threw (the `catch` skips
RAG), and `ragChunks` is the ranked `ragResults.map(r => r.document.content)`. -/

def defaultSystemPrompt : String :=
  "You are a CAD Copilot assistant for Chili3D. "
    ++ "You help users create, modify, and reason about 3D geometry. "
    ++ "You can create sketches, extrude shapes, perform boolean operations, "
    ++ "apply materials, and query the scene graph. "
    ++ "Always explain your reasoning step by step."

/-- `Math.min(4000, Math.floor((tokenBudget - usedTokens) * 0.4))`. -/
def ragBudgetOf (tokenBudget usedTokens : Int) : Int :=
  min 4000 (Int.floor ((((tokenBudget - usedTokens) : Int) : ℚ) * (2 / 5)))

/-- The `selectChunks` loop: accumulate ranked chunks until the next one
would exceed the budget, then `break`. -/
def selectChunksAux (budgetTokens : Int) : List String → Int → List String
  | [], _ => []
  | chunk :: rest, used =>
    if used + (estimateTokens chunk : Int) > budgetTokens then []
    else chunk :: selectChunksAux budgetTokens rest (used + (estimateTokens chunk : Int))

def selectChunks (chunks : List String) (budgetTokens : Int) : String :=
  String.intercalate "\n\n---\n\n" (selectChunksAux budgetTokens chunks 0)

/-- Steps 1-3 of `buildContext`, up to the retrieved-knowledge text. -/
def buildContextRag (sceneContext : String) (tokenBudget : Int)
    (systemPrompt : Option String) (storeCount : Nat) (embedOk : Bool)
    (ragChunks : List String) : String :=
  let system := systemPrompt.getD defaultSystemPrompt
  let usedTokens : Int := (estimateTokens system : Int) + (estimateTokens sceneContext : Int)
  if storeCount > 0 then
    if embedOk then selectChunks ragChunks (ragBudgetOf tokenBudget usedTokens) else ""
  else ""

def sumTokens (l : List String) : Int :=
  (l.map (fun c => (estimateTokens c : Int))).sum

theorem selectChunksAux_greedy (budget : Int) :
    ∀ (chunks : List String) (used : Int), ∃ k,
      selectChunksAux budget chunks used = chunks.take k ∧
      (k ≠ 0 → used + sumTokens (chunks.take k) ≤ budget) ∧
      (k < chunks.length → used + sumTokens (chunks.take (k + 1)) > budget) := by
  intro chunks
  induction chunks with
  | nil =>
    intro used
    exact ⟨0, rfl, fun h => absurd rfl h, fun h => absurd h (by simp)⟩
  | cons chunk rest ih =>
    intro used
    by_cases hfit : used + (estimateTokens chunk : Int) > budget
    · refine ⟨0, ?_, fun h => absurd rfl h, ?_⟩
      · unfold selectChunksAux
        rw [if_pos hfit]
        simp
      · intro _
        simpa [sumTokens] using hfit
    · obtain ⟨k, h1, h2, h3⟩ := ih (used + (estimateTokens chunk : Int))
      refine ⟨k + 1, ?_, ?_, ?_⟩
      · unfold selectChunksAux
        rw [if_neg hfit, h1, List.take_succ_cons]
      · intro _
        rcases Nat.eq_zero_or_pos k with rfl | hk
        · simpa [sumTokens] using le_of_not_lt hfit
        · have := h2 (by omega)
          rw [List.take_succ_cons]
          simp only [sumTokens, List.map_cons, List.sum_cons] at this ⊢
          omega
      · intro hlt
        have := h3 (by simpa using hlt)
        rw [List.take_succ_cons]
        simp only [sumTokens, List.map_cons, List.sum_cons] at this ⊢
        omega

/-- C8: with a nonempty similarity index and a successful embedding, the
retrieved-knowledge text is selected under the sub-budget
`min(4000, floor(0.4 * (tokenBudget - tokens(system) - tokens(scene))))`,
and `selectChunks` realises a greedy prefix of the ranked chunks: some
prefix whose total token estimate fits the sub-budget is taken, and if
any chunk remains unselected, the very next ranked chunk would overflow
the sub-budget — no later (cheaper) chunk is ever selected instead. -/
theorem buildContext_rag_greedy (sceneContext : String) (tokenBudget : Int)
    (systemPrompt : Option String) (storeCount : Nat) (ragChunks : List String)
    (hstore : storeCount > 0) :
    (buildContextRag sceneContext tokenBudget systemPrompt storeCount true ragChunks
      = selectChunks ragChunks
          (min 4000 (Int.floor ((((tokenBudget
              - ((estimateTokens (systemPrompt.getD defaultSystemPrompt) : Int)
                + (estimateTokens sceneContext : Int))) : Int) : ℚ) * (2 / 5))))) ∧
    ∀ budget : Int, ∃ k,
      selectChunksAux budget ragChunks 0 = ragChunks.take k ∧
      (k ≠ 0 → sumTokens (ragChunks.take k) ≤ budget) ∧
      (k < ragChunks.length → sumTokens (ragChunks.take (k + 1)) > budget) ∧
      selectChunks ragChunks budget
        = String.intercalate "\n\n---\n\n" (ragChunks.take k) := by
  constructor
  · unfold buildContextRag ragBudgetOf
    rw [if_pos hstore, if_pos rfl]
  · intro budget
    obtain ⟨k, h1, h2, h3⟩ := selectChunksAux_greedy budget ragChunks 0
    refine ⟨k, h1, ?_, ?_, ?_⟩
    · intro hk
      have := h2 hk
      omega
    · intro hlt
      have := h3 hlt
      omega
    · unfold selectChunks
      rw [h1]

/-- Witness for C8 at a store with one entry and three ranked chunks. -/
theorem buildContext_rag_greedy_witness :
    (buildContextRag "scene" 1000 none 1 true ["aaaa", "bbbbbbbb", "cc"]
      = selectChunks ["aaaa", "bbbbbbbb", "cc"]
          (min 4000 (Int.floor ((((1000
              - ((estimateTokens ((none : Option String).getD defaultSystemPrompt) : Int)
                + (estimateTokens "scene" : Int))) : Int) : ℚ) * (2 / 5))))) ∧
    ∀ budget : Int, ∃ k,
      selectChunksAux budget ["aaaa", "bbbbbbbb", "cc"] 0
        = (["aaaa", "bbbbbbbb", "cc"] : List String).take k ∧
      (k ≠ 0 → sumTokens ((["aaaa", "bbbbbbbb", "cc"] : List String).take k) ≤ budget) ∧
      (k < (["aaaa", "bbbbbbbb", "cc"] : List String).length →
        sumTokens ((["aaaa", "bbbbbbbb", "cc"] : List String).take (k + 1)) > budget) ∧
      selectChunks ["aaaa", "bbbbbbbb", "cc"] budget
        = String.intercalate "\n\n---\n\n" ((["aaaa", "bbbbbbbb", "cc"] : List String).take k) :=
  buildContext_rag_greedy "scene" 1000 none 1 ["aaaa", "bbbbbbbb", "cc"] (by decide)

end Chili
